import Mathlib

/-!
fourier-filter: snapshot ring and spectral gain.

A shallow embedding of `Source/CircularBuffer.tcc` and of the hop callback
`PluginProcessor::processFFT` of `Source/PluginProcessor.cpp`, with the
properties of the specification stated and proved over it.

Conventions of the embedding:

* `std::vector<T>` is a `List T`; an out-of-range `operator[]`, a division by
  zero and a failed `assert` make the operation return `none`;
* `unsigned int` / `uint32_t` arithmetic is `Nat` arithmetic reduced modulo
  `2^32`, `size_t` arithmetic is reduced modulo `2^64`;
* the mutex of the ring is not modelled: every call runs its critical section
  as one step;
* `float` / `double` arithmetic is read over the real numbers.
-/

set_option autoImplicit false

/-! ## Machine integers and raw memory -/

/-- Number of values of an `unsigned int` / `uint32_t`. -/
def UINT32_MOD : Nat := 2 ^ 32

/-- Number of values of a `size_t`. -/
def SIZE_MOD : Nat := 2 ^ 64

/-- The call `v.resize(n)` of `std::vector`: truncates, or pads with
value-initialised elements. -/
def vectorResize {α : Type} [Inhabited α] (v : List α) (n : Nat) : List α :=
  if n ≤ v.length then v.take n else v ++ List.replicate (n - v.length) default

/-- The call `memcpy(&dst[0], &src[0], n * sizeof(T))`: the first `n` elements of
`dst` are overwritten by the first `n` elements of `src`; reading or writing
past the end of either vector is an error. -/
def memcpy {α : Type} (dst src : List α) (n : Nat) : Option (List α) :=
  if n ≤ dst.length ∧ n ≤ src.length then some (src.take n ++ dst.drop n) else none

/-! ## `CircularBuffer` -/

/-- The data members of `CircularBuffer<SampleType>`. -/
structure CircularBuffer (α : Type) where
  m_buffer : List α
  m_writeIndex : Nat
  m_isFilled : Bool
deriving DecidableEq

namespace CircularBuffer

variable {α : Type} [Inhabited α]

/-- The default constructor `CircularBuffer()`: `m_buffer(0)`. -/
def ctor : CircularBuffer α :=
  { m_buffer := List.replicate 0 default, m_writeIndex := 0, m_isFilled := false }

/-- The constructor `CircularBuffer(uint32_t size)`: `m_buffer(size)`. -/
def ctorSize (size : Nat) : CircularBuffer α :=
  { m_buffer := List.replicate size default, m_writeIndex := 0, m_isFilled := false }

/-- The method `getSample(index)`: the element at raw slot `index`. -/
def getSample (s : CircularBuffer α) (index : Nat) : Option α :=
  s.m_buffer[index]?

/-- The method `write(value)`: store at the cursor, set the filled flag when the
cursor is on the last slot, advance the cursor modulo the size. -/
def write (s : CircularBuffer α) (value : α) : Option (CircularBuffer α) :=
  if s.m_writeIndex < s.m_buffer.length then
    let buffer := s.m_buffer.set s.m_writeIndex value
    let isFilled :=
      if s.m_writeIndex = (buffer.length + SIZE_MOD - 1) % SIZE_MOD then true else s.m_isFilled
    let divisor := buffer.length % UINT32_MOD
    if divisor = 0 then none
    else
      some { m_buffer := buffer
             m_writeIndex := ((s.m_writeIndex + 1) % UINT32_MOD) % divisor
             m_isFilled := isFilled }
  else none

/-- The method `resize(size)`: `clear()`, `resize(size)`, cursor and flag reset. -/
def resize (_s : CircularBuffer α) (size : Nat) : CircularBuffer α :=
  { m_buffer := vectorResize ([] : List α) size, m_writeIndex := 0, m_isFilled := false }

/-- The method `copyTo(destination)`: asserts equal sizes, then copies the whole
store over `destination`; the result is the new `destination`. -/
def copyTo (s : CircularBuffer α) (destination : List α) : Option (List α) :=
  if destination.length = s.m_buffer.length then
    memcpy destination s.m_buffer s.m_buffer.length
  else none

/-- The method `isFilled()`. -/
def isFilled (s : CircularBuffer α) : Bool :=
  s.m_isFilled

/-- Writes the values of `values` one after the other, first element first. -/
def writeAll (s : CircularBuffer α) : List α → Option (CircularBuffer α)
  | [] => some s
  | v :: vs => (s.write v).bind fun t => t.writeAll vs

/-- One call of the public interface other than `resize`. -/
inductive Call (α : Type) where
  | write (value : α)
  | getSample (index : Nat)
  | copyTo (destination : List α)
  | isFilled

/-- The ring after one call; `none` when the call breaks its precondition. -/
def step (s : CircularBuffer α) : Call α → Option (CircularBuffer α)
  | .write value => s.write value
  | .getSample index => (s.getSample index).map fun _ => s
  | .copyTo destination => (s.copyTo destination).map fun _ => s
  | .isFilled => some s

/-- The ring after a sequence of calls, first call first. -/
def run (s : CircularBuffer α) : List (Call α) → Option (CircularBuffer α)
  | [] => some s
  | c :: cs => (s.step c).bind fun t => t.run cs

/-- A call whose precondition holds on a ring of `k` slots: `getSample` reads an
existing slot and `copyTo` is given a destination of `k` elements. -/
def Call.okFor (k : Nat) : Call α → Prop
  | .write _ => True
  | .getSample index => index < k
  | .copyTo destination => destination.length = k
  | .isFilled => True

/-- Number of `write` calls in a sequence of calls. -/
def writes : List (Call α) → Nat
  | [] => 0
  | .write _ :: cs => writes cs + 1
  | _ :: cs => writes cs

end CircularBuffer

/-! ## `PluginProcessor::processFFT` -/

noncomputable section

/-- The enumerator `FFT_ORDER`. -/
def FFT_ORDER : Nat := 12

/-- The enumerator `FFT_SIZE = 1 << FFT_ORDER`. -/
def FFT_SIZE : Nat := 1 <<< FFT_ORDER

/-- The enumerator `WINDOW_SIZE = FFT_SIZE`. -/
def WINDOW_SIZE : Nat := FFT_SIZE

/-- The macro `PI`, a decimal literal. The macro `TWO_PI` expands to the
unparenthesised text `2.0 * PI` and is written out where it is used. -/
def PI : ℝ := 3.1415926535

/-- The library function `juce::jlimit (lowerLimit, upperLimit, valueToConstrain)`. -/
def jlimit (lowerLimit upperLimit valueToConstrain : ℝ) : ℝ :=
  if valueToConstrain < lowerLimit then lowerLimit
  else if upperLimit < valueToConstrain then upperLimit
  else valueToConstrain

/-- The six host parameters that `processFFT` loads. -/
structure Params where
  bands : ℝ
  position : ℝ
  width : ℝ
  offset : ℝ
  bias : ℝ
  makeup : ℝ

/-- The default values the constructor of `PluginProcessor` gives the six
parameters. -/
def defaultParams : Params :=
  { bands := 0.5, position := 0.5, width := 0.5, offset := 0, bias := 0, makeup := 0 }

/-- The local `bandsScaled`. -/
def bandsScaled (bands : ℝ) : ℝ := bands * 3.0

/-- The local `positionScaled`. -/
def positionScaled (position : ℝ) : ℝ := -position

/-- The local `widthScaled = pow(width * 5.0, 3.0)`. -/
def widthScaled (width : ℝ) : ℝ := Real.rpow (width * 5.0) 3.0

/-- The local `phaseOffset`, with `TWO_PI` expanded as the preprocessor does. -/
def phaseOffset (channel : Nat) (offset : ℝ) : ℝ :=
  (2.0 * 2.0 * PI * (channel : ℝ) - 2.0 * PI) * offset

/-- The local `makeupScaled`. -/
def makeupScaled (makeup : ℝ) : ℝ := (Real.rpow 100.0 makeup - 1) / (100.0 - 1)

/-- The local `biasScaled`. -/
def biasScaled (bias : ℝ) : ℝ := if bias = 0.0 then 1.001 else Real.rpow 10 bias

/-- The local `indexScaled` of loop index `i`. -/
def indexScaled (i : Nat) : ℝ := (i : ℝ) / ((WINDOW_SIZE : ℝ) / 2.0)

/-- The local `indexBias`. -/
def indexBias (bias : ℝ) (i : Nat) : ℝ :=
  (Real.rpow (biasScaled bias) (5.0 * indexScaled i) - 1.0) /
    (Real.rpow (biasScaled bias) 5.0 - 1.0)

/-- The argument of `log` in the local `indexLog`. -/
def indexLogArg (bias : ℝ) (i : Nat) : ℝ := (i : ℝ) * 12.0 * indexBias bias i + 1.0

/-- The local `indexLog`. -/
def indexLog (p : Params) (i : Nat) : ℝ :=
  Real.log (indexLogArg p.bias i) * bandsScaled p.bands + positionScaled p.position

/-- The local `binScaleModulated`, with `TWO_PI` expanded. -/
def binScaleModulated (p : Params) (channel i : Nat) : ℝ :=
  0.5 * Real.cos (2.0 * PI * indexLog p i + phaseOffset channel p.offset) + 0.5

/-- The local `binScaleScaled`. -/
def binScaleScaled (p : Params) (channel i : Nat) : ℝ :=
  Real.rpow (binScaleModulated p channel i) (widthScaled p.width) * (1.0 + makeupScaled p.makeup)

/-- The local `binScaleClipped`. -/
def binScaleClipped (p : Params) (channel i : Nat) : ℝ :=
  jlimit 0.0 1.0 (binScaleScaled p channel i * (1.0 + makeupScaled p.makeup))

/-- The local `scale`: the factor both `fftData[i]` and its mirror are multiplied by. -/
def scale (p : Params) (channel i : Nat) : ℝ :=
  binScaleClipped p channel i * (1 + 3 * p.width)

/-- One pass of the loop body of `processFFT` on the spectrum: `fftBin *= scale`,
then `fftBinMirrored *= scale`, through two references into `fftData`. The
spectrum is raw memory behind a pointer, indexed by element offset. -/
def scaleBin (p : Params) (channel : Nat) (fftData : Nat → ℂ) (i : Nat) : Nat → ℂ :=
  let fftData1 := Function.update fftData i (fftData i * (scale p channel i : ℂ))
  Function.update fftData1 (WINDOW_SIZE - i)
    (fftData1 (WINDOW_SIZE - i) * (scale p channel i : ℂ))

/-- The loop `for (int i = 0; i < n; ++i)` over `scaleBin`. -/
def scaleBins (p : Params) (channel : Nat) (fftData : Nat → ℂ) (n : Nat) : Nat → ℂ :=
  (List.range n).foldl (scaleBin p channel) fftData

/-- The effect of `processFFT(fftData, channel)` on the spectrum: the loop runs
for `i = 0, ..., WINDOW_SIZE / 2`. -/
def processFFT (p : Params) (fftData : Nat → ℂ) (channel : Nat) : Nat → ℂ :=
  scaleBins p channel fftData (WINDOW_SIZE / 2 + 1)

/-! ## The gain formula of the specification -/

end

/-! ## `PluginProcessor`: published spectrum, ready flag and last block -/

noncomputable section

/-- The enumerator `NUM_CHANNELS`. -/
def NUM_CHANNELS : Nat := 2

/-- The struct `Polar`. -/
structure Polar where
  amplitude : ℝ
  phase : ℝ

/-- A value-initialised `Polar` has both fields zero. -/
instance : Inhabited Polar := ⟨{ amplitude := 0, phase := 0 }⟩

/-- The initialiser `{ std::abs(fftBin), std::arg(fftBin) }`. -/
def polarOf (fftBin : ℂ) : Polar :=
  { amplitude := Complex.abs fftBin, phase := Complex.arg fftBin }

/-- The members of `PluginProcessor` that the visualisation interface reads. -/
structure PluginProcessor where
  m_isSpectrumReady : Bool
  m_prevAudioBuffer : List (List ℝ)
  m_prevSpectrum : List (List Polar)

/-- The constructor of `PluginProcessor`, on these members: both vectors get
`NUM_CHANNELS` empty rows, and every row is resized to `FFT_SIZE`. -/
def PluginProcessor.ctor : PluginProcessor :=
  { m_isSpectrumReady := false
    m_prevAudioBuffer :=
      (List.replicate NUM_CHANNELS ([] : List ℝ)).map fun channelAudioBuffer =>
        vectorResize channelAudioBuffer FFT_SIZE
    m_prevSpectrum :=
      (List.replicate NUM_CHANNELS ([] : List Polar)).map fun channelSpectrum =>
        vectorResize channelSpectrum FFT_SIZE }

/-- The assignment `m_prevSpectrum[channel][i] = value`, bounds-checked. -/
def setPolar (spectrum : List (List Polar)) (channel i : Nat) (value : Polar) :
    Option (List (List Polar)) :=
  match spectrum[channel]? with
  | none => none
  | some channelSpectrum =>
    if i < channelSpectrum.length then some (spectrum.set channel (channelSpectrum.set i value))
    else none

/-- One pass of the loop of `processFFT` on the published spectrum and the
transform data: the two multiplications, then the publication of bin `i` inside
the lock. -/
def publishBin (p : Params) (channel : Nat) (st : List (List Polar) × (Nat → ℂ)) (i : Nat) :
    Option (List (List Polar) × (Nat → ℂ)) :=
  let fftData := scaleBin p channel st.2 i
  (setPolar st.1 channel i (polarOf (fftData i))).map fun spectrum => (spectrum, fftData)

/-- The first `n` passes of the loop of `processFFT`. -/
def publishBins (p : Params) (channel : Nat) (st : List (List Polar) × (Nat → ℂ)) :
    Nat → Option (List (List Polar) × (Nat → ℂ))
  | 0 => some st
  | n + 1 => (publishBins p channel st n).bind fun t => publishBin p channel t n

/-- The method `processFFT(fftData, channel)` on the processor and the transform
data: the loop for `i = 0, ..., WINDOW_SIZE / 2`, then `m_isSpectrumReady.store(true)`. -/
def PluginProcessor.processFFT (p : Params) (self : PluginProcessor) (fftData : Nat → ℂ)
    (channel : Nat) : Option (PluginProcessor × (Nat → ℂ)) :=
  (publishBins p channel (self.m_prevSpectrum, fftData) (WINDOW_SIZE / 2 + 1)).map fun st =>
    ({ self with m_prevSpectrum := st.1, m_isSpectrumReady := true }, st.2)

/-- The method `isSpectrumReady()`. -/
def PluginProcessor.isSpectrumReady (self : PluginProcessor) : Bool :=
  self.m_isSpectrumReady

/-- One hop callback: the parameter values it loads, the data and the channel. -/
structure Hop where
  params : Params
  fftData : Nat → ℂ
  channel : Nat

/-- The processor after a sequence of hop callbacks, first callback first. -/
def PluginProcessor.runHops (self : PluginProcessor) : List Hop → Option PluginProcessor
  | [] => some self
  | h :: hs =>
    (PluginProcessor.processFFT h.params self h.fftData h.channel).bind fun st =>
      PluginProcessor.runHops st.1 hs

/-- One pass of the loop of `copySpectrum`: inside the lock, the `memcpy` of the
whole row of `channel` into the row of `destination`. -/
def PluginProcessor.copyChannel (self : PluginProcessor) (destination : List (List Polar))
    (channel : Nat) : Option (List (List Polar)) :=
  match destination[channel]?, self.m_prevSpectrum[channel]? with
  | some dst, some src => (memcpy dst src src.length).map fun dst' => destination.set channel dst'
  | _, _ => none

/-- The first `n` passes of the loop of `copySpectrum`. -/
def PluginProcessor.copyChannels (self : PluginProcessor) (destination : List (List Polar)) :
    Nat → Option (List (List Polar))
  | 0 => some destination
  | n + 1 =>
    (PluginProcessor.copyChannels self destination n).bind fun d =>
      PluginProcessor.copyChannel self d n

/-- The method `copySpectrum(destination)`: the two assertions, then the loop
over the channels. -/
def PluginProcessor.copySpectrum (self : PluginProcessor) (destination : List (List Polar)) :
    Option (List (List Polar)) :=
  match destination[0]?, self.m_prevSpectrum[0]? with
  | some dst, some src =>
    if destination.length = self.m_prevSpectrum.length ∧ dst.length = src.length then
      PluginProcessor.copyChannels self destination NUM_CHANNELS
    else none
  | _, _ => none

/-- The bulk copy that ends the channel loop of `processBlock`:
`memcpy(&m_prevAudioBuffer[channel][0], channelData, m_prevAudioBuffer[channel].size() * sizeof(float))`,
where `channelData` is the block of `numSamples` samples of the channel. -/
def PluginProcessor.copyLastBlock (self : PluginProcessor) (channelData : List ℝ)
    (channel : Nat) : Option PluginProcessor :=
  match self.m_prevAudioBuffer[channel]? with
  | none => none
  | some prev =>
    (memcpy prev channelData prev.length).map fun prev' =>
      { self with m_prevAudioBuffer := self.m_prevAudioBuffer.set channel prev' }

/-- The indices of `channelData` that the bulk copy of `processBlock` reads. -/
def PluginProcessor.lastBlockReads (self : PluginProcessor) (channel : Nat) : List Nat :=
  match self.m_prevAudioBuffer[channel]? with
  | none => []
  | some prev => List.range prev.length

/-! ## Interleavings of `processFFT` and `copySpectrum` -/

/-- The two threads that share `m_prevSpectrum`. -/
inductive Thread where
  | realTime
  | consumer

/-- A real-time thread inside one call of `processFFT` and a consumer thread
inside one call of `copySpectrum`: the shared processor, and each thread's own
data and loop counter. -/
structure Interleaving where
  self : PluginProcessor
  fftData : Nat → ℂ
  i : Nat
  destination : List (List Polar)
  channel : Nat

/-- One atomic step of a thread. A step of the real-time thread is one pass of
its loop (the multiplications touch only its own data, the publication is the
critical section), and after the loop the store to the flag; a step of the
consumer is the critical section of one pass of its loop. A thread that has
finished does nothing. -/
def Interleaving.step (p : Params) (hopChannel : Nat) (sys : Interleaving) :
    Thread → Option Interleaving
  | .realTime =>
    if sys.i ≤ WINDOW_SIZE / 2 then
      (publishBin p hopChannel (sys.self.m_prevSpectrum, sys.fftData) sys.i).map fun st =>
        { sys with self := { sys.self with m_prevSpectrum := st.1 }, fftData := st.2, i := sys.i + 1 }
    else if sys.i = WINDOW_SIZE / 2 + 1 then
      some { sys with self := { sys.self with m_isSpectrumReady := true }, i := sys.i + 1 }
    else some sys
  | .consumer =>
    if sys.channel < NUM_CHANNELS then
      (PluginProcessor.copyChannel sys.self sys.destination sys.channel).map fun d =>
        { sys with destination := d, channel := sys.channel + 1 }
    else some sys

/-- The joint state after the steps of a schedule, first step first. -/
def Interleaving.run (p : Params) (hopChannel : Nat) (sys : Interleaving) :
    List Thread → Option Interleaving
  | [] => some sys
  | t :: ts =>
    (Interleaving.step p hopChannel sys t).bind fun sys' =>
      Interleaving.run p hopChannel sys' ts

/-- The two threads at the start of their calls. -/
def Interleaving.start (self : PluginProcessor) (fftData : Nat → ℂ)
    (destination : List (List Polar)) : Interleaving :=
  { self := self, fftData := fftData, i := 0, destination := destination, channel := 0 }

/-! ## Bounds-checked `processFFT` -/

/-- One pass of the loop of `processFFT` on a spectrum buffer of known length:
as `scaleBin`, with every index checked against the length of the buffer. -/
def scaleBinChecked (p : Params) (channel : Nat) (fftData : List ℂ) (i : Nat) :
    Option (List ℂ) :=
  match fftData[i]? with
  | none => none
  | some fftBin =>
    let fftData1 := fftData.set i (fftBin * (scale p channel i : ℂ))
    match fftData1[WINDOW_SIZE - i]? with
    | none => none
    | some fftBinMirrored =>
      some (fftData1.set (WINDOW_SIZE - i) (fftBinMirrored * (scale p channel i : ℂ)))

/-- The first `n` passes of the bounds-checked loop. -/
def scaleBinsChecked (p : Params) (channel : Nat) (fftData : List ℂ) :
    Nat → Option (List ℂ)
  | 0 => some fftData
  | n + 1 => (scaleBinsChecked p channel fftData n).bind fun d => scaleBinChecked p channel d n

/-- The bounds-checked loop of `processFFT`, for `i = 0, ..., WINDOW_SIZE / 2`. -/
def processFFTChecked (p : Params) (fftData : List ℂ) (channel : Nat) : Option (List ℂ) :=
  scaleBinsChecked p channel fftData (WINDOW_SIZE / 2 + 1)

/-- The indices of the spectrum that pass `i` of the loop of `processFFT` reads
and writes. -/
def binIndices (i : Nat) : List Nat := [i, WINDOW_SIZE - i]

end

/-! ## Properties of the ring -/

namespace CircularBuffer

theorem vectorResize_nil {α : Type} [Inhabited α] (n : Nat) :
    vectorResize ([] : List α) n = List.replicate n default := by
  unfold vectorResize
  by_cases h : n ≤ ([] : List α).length
  · have h0 : n = 0 := by simpa using h
    subst h0
    simp
  · simp [h]

theorem resize_eq_ctorSize {α : Type} [Inhabited α] (s₀ : CircularBuffer α) (size : Nat) :
    s₀.resize size = ctorSize size := by
  simp [resize, ctorSize, vectorResize_nil]

/-- What `write` does on a ring of `C ≥ 1` slots whose cursor is inside the store. -/
theorem write_eq {α : Type} (s : CircularBuffer α) (value : α) (C : Nat) (hC : 1 ≤ C)
    (h32 : C < UINT32_MOD) (hlen : s.m_buffer.length = C) (hidx : s.m_writeIndex < C) :
    s.write value = some
      { m_buffer := s.m_buffer.set s.m_writeIndex value
        m_writeIndex := (s.m_writeIndex + 1) % C
        m_isFilled := if s.m_writeIndex = C - 1 then true else s.m_isFilled } := by
  have h1 : (C + SIZE_MOD - 1) % SIZE_MOD = C - 1 := by
    unfold UINT32_MOD at h32
    unfold SIZE_MOD
    omega
  have h2 : C % UINT32_MOD = C := Nat.mod_eq_of_lt h32
  have h3 : (s.m_writeIndex + 1) % UINT32_MOD = s.m_writeIndex + 1 :=
    Nat.mod_eq_of_lt (by omega)
  have h4 : C ≠ 0 := by omega
  simp [write, hlen, hidx, h1, h2, h3, h4]

theorem writeAll_append {α : Type} (s : CircularBuffer α) (xs ys : List α) :
    s.writeAll (xs ++ ys) = (s.writeAll xs).bind fun t => t.writeAll ys := by
  induction xs generalizing s with
  | nil => simp [writeAll]
  | cons x xs ih =>
    simp only [List.cons_append, writeAll]
    cases s.write x with
    | none => simp
    | some t => simpa using ih t

theorem copyTo_eq {α : Type} (s : CircularBuffer α) (destination : List α)
    (h : destination.length = s.m_buffer.length) :
    s.copyTo destination = some s.m_buffer := by
  unfold copyTo memcpy
  rw [if_pos h, if_pos ⟨by omega, le_refl _⟩]
  simp [← h]

/-- The state reached by `n` writes into a fresh ring of `C` slots: the store
keeps its size, the cursor is `n mod C`, the flag tells whether `C ≤ n`, and
slot `j` holds the value of the last write whose position is `j` modulo `C`. -/
theorem writeAll_ctorSize {α : Type} [Inhabited α] (C : Nat) (hC : 1 ≤ C)
    (h32 : C < UINT32_MOD) (vs : List α) :
    ∃ s : CircularBuffer α, (ctorSize C).writeAll vs = some s ∧
      s.m_buffer.length = C ∧ s.m_writeIndex = vs.length % C ∧
      (s.m_isFilled = true ↔ C ≤ vs.length) ∧
      ∀ j, j < C →
        (∀ k, k < vs.length → k % C = j →
          (∀ k', k' < vs.length → k' % C = j → k' ≤ k) → s.m_buffer[j]? = vs[k]?) ∧
        ((∀ k, k < vs.length → k % C ≠ j) → s.m_buffer[j]? = some default) := by
  induction vs using List.reverseRecOn with
  | nil =>
    refine ⟨ctorSize C, rfl, by simp [ctorSize], by simp [ctorSize], ?_, ?_⟩
    · simp [ctorSize]; omega
    · intro j hj
      refine ⟨fun k hk => absurd hk (by simp), fun _ => ?_⟩
      simp [ctorSize, hj]
  | append_singleton vs v ih =>
    obtain ⟨s, hrun, hlen, hidx, hfill, hslots⟩ := ih
    have hlt : s.m_writeIndex < C := by rw [hidx]; exact Nat.mod_lt _ (by omega)
    have hw := write_eq s v C hC h32 hlen hlt
    refine ⟨{ m_buffer := s.m_buffer.set s.m_writeIndex v
              m_writeIndex := (s.m_writeIndex + 1) % C
              m_isFilled := if s.m_writeIndex = C - 1 then true else s.m_isFilled },
      ?_, ?_, ?_, ?_, ?_⟩
    · rw [writeAll_append, hrun]
      simp only [Option.some_bind, writeAll]
      rw [hw]; rfl
    · simp [hlen]
    · simp only [List.length_append, List.length_singleton, hidx]
      exact Nat.mod_add_mod _ _ _
    · simp only [List.length_append, List.length_singleton, hidx]
      by_cases hfull : C ≤ vs.length
      · have := hfill.mpr hfull
        simp [this]; omega
      · have hnf : s.m_isFilled = false := by
          cases hb : s.m_isFilled with
          | false => rfl
          | true => exact absurd (hfill.mp hb) hfull
        have hmod : vs.length % C = vs.length := Nat.mod_eq_of_lt (by omega)
        simp [hnf, hmod]; omega
    · intro j hj
      simp only [List.length_append, List.length_singleton]
      by_cases hjn : j = vs.length % C
      · subst hjn
        refine ⟨fun k hk hkj hmax => ?_, fun hnone => absurd rfl (hnone vs.length (by omega))⟩
        have hle := hmax vs.length (by omega) rfl
        have hkeq : k = vs.length := by omega
        subst hkeq
        simp [hidx, hlen, hj]
      · have hset : (s.m_buffer.set s.m_writeIndex v)[j]? = s.m_buffer[j]? := by
          rw [List.getElem?_set_ne]
          rw [hidx]; exact fun h => hjn h.symm
        refine ⟨fun k hk hkj hmax => ?_, fun hnone => ?_⟩
        · have hkn : k ≠ vs.length := fun h => hjn (by rw [← hkj, h])
          have hk2 : k < vs.length := by omega
          rw [hset, List.getElem?_append_left hk2]
          exact (hslots j hj).1 k hk2 hkj fun k' hk' hk'j => hmax k' (by omega) hk'j
        · rw [hset]
          exact (hslots j hj).2 fun k hk => hnone k (by omega)

/-- The state reached from a ring of `k` slots on which `w` writes have been
made since the last resize. -/
theorem run_reach {α : Type} (k : Nat) (hk : 1 ≤ k) (h32 : k < UINT32_MOD)
    (cs : List (Call α)) (s : CircularBuffer α) (w : Nat)
    (hlen : s.m_buffer.length = k) (hidx : s.m_writeIndex = w % k)
    (hfill : s.m_isFilled = true ↔ k ≤ w) (hcs : ∀ c ∈ cs, c.okFor k) :
    ∃ t : CircularBuffer α, s.run cs = some t ∧ t.m_buffer.length = k ∧
      t.m_writeIndex = (w + writes cs) % k ∧ (t.m_isFilled = true ↔ k ≤ w + writes cs) := by
  induction cs generalizing s w with
  | nil => exact ⟨s, rfl, hlen, by simpa [writes] using hidx, by simpa [writes] using hfill⟩
  | cons c cs ih =>
    have hrest : ∀ c' ∈ cs, c'.okFor k := fun c' hc' => hcs c' (List.mem_cons_of_mem _ hc')
    have hc : c.okFor k := hcs c (List.mem_cons_self _ _)
    cases c with
    | write value =>
      have hlt : s.m_writeIndex < k := by rw [hidx]; exact Nat.mod_lt _ (by omega)
      have hw := write_eq s value k hk h32 hlen hlt
      obtain ⟨t, ht, htlen, htidx, htfill⟩ :=
        ih { m_buffer := s.m_buffer.set s.m_writeIndex value
             m_writeIndex := (s.m_writeIndex + 1) % k
             m_isFilled := if s.m_writeIndex = k - 1 then true else s.m_isFilled } (w + 1)
          (by simp [hlen]) (by simp only [hidx]; exact Nat.mod_add_mod _ _ _)
          (by
            simp only [hidx]
            by_cases hfull : k ≤ w
            · have := hfill.mpr hfull
              simp [this]; omega
            · have hnf : s.m_isFilled = false := by
                cases hb : s.m_isFilled with
                | false => rfl
                | true => exact absurd (hfill.mp hb) hfull
              have hmod : w % k = w := Nat.mod_eq_of_lt (by omega)
              simp [hnf, hmod]; omega) hrest
      refine ⟨t, ?_, htlen, ?_, ?_⟩
      · simp only [run, step, hw, Option.some_bind]; exact ht
      · rw [htidx]; simp only [writes]; congr 1; omega
      · rw [htfill]; simp only [writes]; omega
    | getSample index =>
      obtain ⟨t, ht, htlen, htidx, htfill⟩ := ih s w hlen hidx hfill hrest
      have hin : index < s.m_buffer.length := by rw [hlen]; exact hc
      refine ⟨t, ?_, htlen, by simpa [writes] using htidx, by simpa [writes] using htfill⟩
      simp only [run, step, getSample, List.getElem?_eq_getElem hin, Option.map_some',
        Option.some_bind]
      exact ht
    | copyTo destination =>
      obtain ⟨t, ht, htlen, htidx, htfill⟩ := ih s w hlen hidx hfill hrest
      have hd : destination.length = s.m_buffer.length := by rw [hlen]; exact hc
      refine ⟨t, ?_, htlen, by simpa [writes] using htidx, by simpa [writes] using htfill⟩
      simp only [run, step, copyTo_eq s destination hd, Option.map_some', Option.some_bind]
      exact ht
    | isFilled =>
      obtain ⟨t, ht, htlen, htidx, htfill⟩ := ih s w hlen hidx hfill hrest
      refine ⟨t, ?_, htlen, by simpa [writes] using htidx, by simpa [writes] using htfill⟩
      simp only [run, step, Option.some_bind]
      exact ht

theorem run_append {α : Type} (s : CircularBuffer α) (xs ys : List (Call α)) :
    s.run (xs ++ ys) = (s.run xs).bind fun t => t.run ys := by
  induction xs generalizing s with
  | nil => simp [run]
  | cons x xs ih =>
    simp only [List.cons_append, run]
    cases s.step x with
    | none => simp
    | some t => simpa using ih t

theorem writes_append {α : Type} (xs ys : List (Call α)) :
    writes (xs ++ ys) = writes xs + writes ys := by
  induction xs with
  | nil => simp [writes]
  | cons x xs ih =>
    cases x with
    | write value => simp [writes, ih]; omega
    | _ => simp [writes, ih]

end CircularBuffer

/-! ## Claims about the ring -/

/-- C1: after `n` values are written into a ring of `C ≥ 1` slots that was just
constructed or resized, the cursor is `n mod C`, `copyTo` yields the store, each
slot `j` of the store holds the last written value whose position is `j` modulo
`C` (the default value when there is none), and after `C` values followed by one
more value `w` the store is `w` followed by all but the first of the `C` values. -/
theorem write_sequence_store {α : Type} [Inhabited α] (C : Nat) (hC : 1 ≤ C)
    (h32 : C < UINT32_MOD) (s₀ : CircularBuffer α) (vs : List α) :
    s₀.resize C = CircularBuffer.ctorSize C ∧
    ∃ s : CircularBuffer α, (CircularBuffer.ctorSize C).writeAll vs = some s ∧
      s.m_writeIndex = vs.length % C ∧
      s.m_buffer.length = C ∧
      (∀ destination : List α, destination.length = C →
        s.copyTo destination = some s.m_buffer) ∧
      (∀ j, j < C →
        (∀ k, k < vs.length → k % C = j →
          (∀ k', k' < vs.length → k' % C = j → k' ≤ k) → s.m_buffer[j]? = vs[k]?) ∧
        ((∀ k, k < vs.length → k % C ≠ j) → s.m_buffer[j]? = some default)) ∧
      (∀ (v₀ w : α) (rest : List α), vs = v₀ :: rest ++ [w] → rest.length + 1 = C →
        s.m_buffer = w :: rest) := by
  refine ⟨CircularBuffer.resize_eq_ctorSize s₀ C, ?_⟩
  obtain ⟨s, hrun, hlen, hidx, _, hslots⟩ := CircularBuffer.writeAll_ctorSize C hC h32 vs
  refine ⟨s, hrun, hidx, hlen, fun d hd => CircularBuffer.copyTo_eq s d (by rw [hd, hlen]),
    hslots, ?_⟩
  intro v₀ w rest hvs hrest
  have hvl : vs.length = C + 1 := by rw [hvs]; simp; omega
  apply List.ext_getElem?
  intro j
  by_cases hj : j < C
  · by_cases hj0 : j = 0
    · subst hj0
      have h := (hslots 0 hj).1 C (by omega) (Nat.mod_self C) (fun k' hk' _ => by omega)
      rw [h, hvs]
      have hC' : C = (v₀ :: rest).length := by simp; omega
      rw [List.cons_append, ← List.cons_append, hC']
      simp
    · have hjm : j % C = j := Nat.mod_eq_of_lt hj
      have h := (hslots j hj).1 j (by omega) hjm (fun k' hk' hk'j => by
        by_cases hkC : k' = C
        · subst hkC; rw [Nat.mod_self] at hk'j; omega
        · have : k' < C := by omega
          rw [Nat.mod_eq_of_lt this] at hk'j; omega)
      rw [h, hvs]
      obtain ⟨i, rfl⟩ : ∃ i, j = i + 1 := ⟨j - 1, by omega⟩
      have hi : i < rest.length := by omega
      simp [List.getElem?_append_left hi]
  · have h1 : s.m_buffer[j]? = none := List.getElem?_eq_none (by omega)
    have h2 : (w :: rest)[j]? = none := List.getElem?_eq_none (by simp; omega)
    rw [h1, h2]

/-- C1 at a ring of three slots receiving the values 10, 20, 30, 40. -/
theorem write_sequence_store_witness :
    (1 ≤ 3 ∧ 3 < UINT32_MOD) ∧
    ((CircularBuffer.ctor : CircularBuffer Nat).resize 3 = CircularBuffer.ctorSize 3 ∧
    ∃ s : CircularBuffer Nat,
      (CircularBuffer.ctorSize 3).writeAll [10, 20, 30, 40] = some s ∧
      s.m_writeIndex = [10, 20, 30, 40].length % 3 ∧
      s.m_buffer.length = 3 ∧
      (∀ destination : List Nat, destination.length = 3 →
        s.copyTo destination = some s.m_buffer) ∧
      (∀ j, j < 3 →
        (∀ k, k < [10, 20, 30, 40].length → k % 3 = j →
          (∀ k', k' < [10, 20, 30, 40].length → k' % 3 = j → k' ≤ k) →
            s.m_buffer[j]? = [10, 20, 30, 40][k]?) ∧
        ((∀ k, k < [10, 20, 30, 40].length → k % 3 ≠ j) → s.m_buffer[j]? = some default)) ∧
      (∀ (v₀ w : Nat) (rest : List Nat), [10, 20, 30, 40] = v₀ :: rest ++ [w] →
        rest.length + 1 = 3 → s.m_buffer = w :: rest)) :=
  ⟨⟨by decide, by decide⟩,
    write_sequence_store 3 (by decide) (by decide) CircularBuffer.ctor [10, 20, 30, 40]⟩

/-- C2: on a ring of `k ≥ 1` slots that was just resized or constructed, every
sequence of `write`, `getSample`, `copyTo` and `isFilled` calls that respect
their preconditions runs to completion, and afterwards `isFilled` is true
exactly when the sequence holds at least `k` writes; one more such call made
when `isFilled` is true leaves it true. -/
theorem isFilled_iff_writes {α : Type} [Inhabited α] (k : Nat) (hk : 1 ≤ k)
    (h32 : k < UINT32_MOD) (s₀ : CircularBuffer α) (cs : List (CircularBuffer.Call α))
    (hcs : ∀ c ∈ cs, c.okFor k) :
    s₀.resize k = CircularBuffer.ctorSize k ∧
    ∃ s : CircularBuffer α, (s₀.resize k).run cs = some s ∧
      (s.isFilled = true ↔ k ≤ CircularBuffer.writes cs) ∧
      ∀ c : CircularBuffer.Call α, c.okFor k → s.isFilled = true →
        ∃ t : CircularBuffer α, s.step c = some t ∧ t.isFilled = true := by
  refine ⟨CircularBuffer.resize_eq_ctorSize s₀ k, ?_⟩
  have hfresh : ∀ ds : List (CircularBuffer.Call α), (∀ c ∈ ds, c.okFor k) →
      ∃ t : CircularBuffer α, (s₀.resize k).run ds = some t ∧
        (t.m_isFilled = true ↔ k ≤ CircularBuffer.writes ds) := by
    intro ds hds
    obtain ⟨t, ht, _, _, htf⟩ := CircularBuffer.run_reach k hk h32 ds (s₀.resize k) 0
      (by simp [CircularBuffer.resize, CircularBuffer.vectorResize_nil])
      (by simp [CircularBuffer.resize])
      (by simp [CircularBuffer.resize]; omega) hds
    exact ⟨t, ht, by simpa using htf⟩
  obtain ⟨s, hs, hsf⟩ := hfresh cs hcs
  refine ⟨s, hs, hsf, ?_⟩
  intro c hc hfilled
  obtain ⟨t, ht, htf⟩ := hfresh (cs ++ [c]) (by
    intro c' hc'
    rcases List.mem_append.mp hc' with h | h
    · exact hcs c' h
    · rw [List.mem_singleton.mp h]; exact hc)
  rw [CircularBuffer.run_append, hs] at ht
  simp only [Option.some_bind, CircularBuffer.run] at ht
  cases hstep : s.step c with
  | none => rw [hstep] at ht; simp at ht
  | some u =>
    rw [hstep] at ht
    simp only [Option.some_bind, Option.some.injEq] at ht
    subst ht
    refine ⟨u, rfl, htf.mpr ?_⟩
    have := hsf.mp hfilled
    rw [CircularBuffer.writes_append]
    omega

/-- C2 at a ring of two slots and the calls write, isFilled, write, getSample. -/
theorem isFilled_iff_writes_witness :
    (1 ≤ 2 ∧ 2 < UINT32_MOD ∧
      ∀ c ∈ [CircularBuffer.Call.write 5, .isFilled, .write 6, .getSample 1],
        CircularBuffer.Call.okFor 2 c) ∧
    ((CircularBuffer.ctor : CircularBuffer Nat).resize 2 = CircularBuffer.ctorSize 2 ∧
    ∃ s : CircularBuffer Nat,
      ((CircularBuffer.ctor : CircularBuffer Nat).resize 2).run
        [.write 5, .isFilled, .write 6, .getSample 1] = some s ∧
      (s.isFilled = true ↔
        2 ≤ CircularBuffer.writes
          [CircularBuffer.Call.write 5, .isFilled, .write 6, .getSample 1]) ∧
      ∀ c : CircularBuffer.Call Nat, c.okFor 2 → s.isFilled = true →
        ∃ t : CircularBuffer Nat, s.step c = some t ∧ t.isFilled = true) :=
  ⟨⟨by decide, by decide, by simp [CircularBuffer.Call.okFor]⟩,
    isFilled_iff_writes 2 (by decide) (by decide) CircularBuffer.ctor
      [.write 5, .isFilled, .write 6, .getSample 1] (by simp [CircularBuffer.Call.okFor])⟩

/-- C3: whatever the ring held, `resize(newCapacity)` leaves a store of exactly
`newCapacity` slots that all hold the default value, the cursor at 0 and the
filled flag false. -/
theorem resize_resets {α : Type} [Inhabited α] (s : CircularBuffer α) (newCapacity : Nat) :
    (s.resize newCapacity).m_buffer.length = newCapacity ∧
    (∀ j, j < newCapacity → (s.resize newCapacity).m_buffer[j]? = some default) ∧
    (s.resize newCapacity).m_buffer = List.replicate newCapacity default ∧
    (s.resize newCapacity).m_writeIndex = 0 ∧
    (s.resize newCapacity).isFilled = false := by
  have hb : (s.resize newCapacity).m_buffer = List.replicate newCapacity default := by
    simp [CircularBuffer.resize, CircularBuffer.vectorResize_nil]
  refine ⟨by simp [hb], fun j hj => by simp [hb, hj], hb, rfl, rfl⟩

/-- C4 fails on the code: on a ring of capacity 0, whether default-constructed,
constructed with size 0 or resized to 0, `write` stores outside the empty
store and takes the cursor modulo 0. -/
theorem write_capacity_zero_fails {α : Type} [Inhabited α] (s : CircularBuffer α)
    (value : α) :
    (CircularBuffer.ctor : CircularBuffer α).write value = none ∧
    (CircularBuffer.ctorSize 0 : CircularBuffer α).write value = none ∧
    (s.resize 0).write value = none ∧
    ¬ (CircularBuffer.ctor : CircularBuffer α).m_writeIndex
        < (CircularBuffer.ctor : CircularBuffer α).m_buffer.length ∧
    (CircularBuffer.ctor : CircularBuffer α).m_buffer.length % UINT32_MOD = 0 := by
  refine ⟨?_, ?_, ?_, ?_, ?_⟩ <;>
    simp [CircularBuffer.write, CircularBuffer.ctor, CircularBuffer.ctorSize,
      CircularBuffer.resize, CircularBuffer.vectorResize_nil]

/-! ## Properties of the gain -/

theorem jlimit_unit_mem (x : ℝ) : 0 ≤ jlimit 0.0 1.0 x ∧ jlimit 0.0 1.0 x ≤ 1 := by
  unfold jlimit
  norm_num
  split_ifs with h1 h2
  · exact ⟨le_refl _, by norm_num⟩
  · exact ⟨by norm_num, le_refl _⟩
  · exact ⟨by linarith, by linarith⟩

theorem widthScaled_eq (width : ℝ) : widthScaled width = (width * 5) ^ 3 := by
  unfold widthScaled
  have h : (3.0 : ℝ) = ((3 : ℕ) : ℝ) := by norm_num
  rw [Real.rpow_eq_pow, h, Real.rpow_natCast]
  norm_num

theorem widthScaled_zero : widthScaled 0 = 0 := by
  rw [widthScaled_eq]; norm_num

theorem makeupScaled_zero : makeupScaled 0 = 0 := by
  unfold makeupScaled
  simp

theorem indexScaled_zero : indexScaled 0 = 0 := by
  unfold indexScaled
  simp

theorem indexBias_zero (bias : ℝ) : indexBias bias 0 = 0 := by
  unfold indexBias
  rw [indexScaled_zero]
  norm_num

theorem indexLogArg_zero (bias : ℝ) : indexLogArg bias 0 = 1 := by
  unfold indexLogArg
  norm_num
theorem indexLog_zero (p : Params) : indexLog p 0 = -p.position := by
  unfold indexLog positionScaled
  rw [indexLogArg_zero]
  simp

theorem scale_bin_zero (p : Params) (channel : Nat) (hoff : p.offset = 0) :
    scale p channel 0 =
      jlimit 0.0 1.0 (Real.rpow (0.5 * Real.cos (2.0 * PI * -p.position) + 0.5)
        (widthScaled p.width) * (1.0 + makeupScaled p.makeup) * (1.0 + makeupScaled p.makeup))
      * (1 + 3 * p.width) := by
  unfold scale binScaleClipped binScaleScaled binScaleModulated phaseOffset
  rw [indexLog_zero, hoff]
  simp

theorem scale_width_zero (p : Params) (channel i : Nat) (hw : p.width = 0) :
    scale p channel i =
      jlimit 0.0 1.0 ((1.0 + makeupScaled p.makeup) * (1.0 + makeupScaled p.makeup)) := by
  unfold scale binScaleClipped binScaleScaled
  rw [hw, widthScaled_zero]
  simp [mul_assoc]

theorem WINDOW_SIZE_eq : WINDOW_SIZE = 4096 := by decide

theorem biasScaled_cases (bias : ℝ) :
    1 < biasScaled bias ∨ (0 < biasScaled bias ∧ biasScaled bias < 1) := by
  unfold biasScaled
  by_cases h0 : bias = 0.0
  · rw [if_pos h0]; left; norm_num
  · rw [if_neg h0, Real.rpow_eq_pow]
    have h0' : bias ≠ 0 := fun h => h0 (by rw [h]; norm_num)
    rcases lt_or_gt_of_ne h0' with hneg | hpos
    · right
      exact ⟨Real.rpow_pos_of_pos (by norm_num) _,
        Real.rpow_lt_one_of_one_lt_of_neg (by norm_num) hneg⟩
    · left
      exact Real.one_lt_rpow (by norm_num) hpos

theorem indexScaled_mem (i : Nat) (hi : i ≤ WINDOW_SIZE / 2) :
    0 ≤ indexScaled i ∧ indexScaled i ≤ 1 := by
  unfold indexScaled
  rw [WINDOW_SIZE_eq] at hi ⊢
  have hi' : (i : ℝ) ≤ 2048 := by exact_mod_cast hi
  have h0 : (0 : ℝ) ≤ i := Nat.cast_nonneg i
  constructor
  · positivity
  · rw [div_le_one (by norm_num)]
    norm_num
    omega

theorem indexBias_facts (bias : ℝ) (i : Nat) (hi : i ≤ WINDOW_SIZE / 2) :
    Real.rpow (biasScaled bias) 5.0 - 1.0 ≠ 0 ∧ 0 ≤ indexBias bias i ∧ indexBias bias i ≤ 1 := by
  obtain ⟨hx0, hx1⟩ := indexScaled_mem i hi
  have h5 : (5.0 : ℝ) = 5 := by norm_num
  have h1 : (1.0 : ℝ) = 1 := by norm_num
  have hexp0 : (0 : ℝ) ≤ 5 * indexScaled i := by linarith
  have hexp1 : 5 * indexScaled i ≤ (5 : ℝ) := by linarith
  unfold indexBias
  simp only [Real.rpow_eq_pow, h5, h1]
  rcases biasScaled_cases bias with hb | ⟨hb0, hb1⟩
  · have hD : 0 < biasScaled bias ^ (5 : ℝ) - 1 := by
      have := Real.one_lt_rpow hb (by norm_num : (0 : ℝ) < 5)
      linarith
    have hn0 : 0 ≤ biasScaled bias ^ (5 * indexScaled i) - 1 := by
      have := Real.one_le_rpow hb.le hexp0
      linarith
    have hn1 : biasScaled bias ^ (5 * indexScaled i) - 1 ≤ biasScaled bias ^ (5 : ℝ) - 1 := by
      have := Real.rpow_le_rpow_of_exponent_le hb.le hexp1
      linarith
    exact ⟨ne_of_gt hD, div_nonneg hn0 hD.le, (div_le_one hD).mpr hn1⟩
  · have hD : biasScaled bias ^ (5 : ℝ) - 1 < 0 := by
      have := Real.rpow_lt_one hb0.le hb1 (by norm_num : (0 : ℝ) < 5)
      linarith
    have hn0 : biasScaled bias ^ (5 * indexScaled i) - 1 ≤ 0 := by
      have := Real.rpow_le_one hb0.le hb1.le hexp0
      linarith
    have hn1 : biasScaled bias ^ (5 : ℝ) - 1 ≤ biasScaled bias ^ (5 * indexScaled i) - 1 := by
      have := Real.rpow_le_rpow_of_exponent_ge hb0 hb1.le hexp1
      linarith
    exact ⟨ne_of_lt hD, div_nonneg_of_nonpos hn0 hD.le, (div_le_one_of_neg hD).mpr hn1⟩

theorem scaleBins_succ (p : Params) (channel : Nat) (fftData : Nat → ℂ) (n : Nat) :
    scaleBins p channel fftData (n + 1) = scaleBin p channel (scaleBins p channel fftData n) n := by
  unfold scaleBins
  rw [List.range_succ, List.foldl_append]
  rfl

/-- The spectrum after the first `n` passes of the loop, as long as no pass has
reached the middle bin: the bins below `n` and their mirrors are scaled once. -/
theorem scaleBins_below_middle (p : Params) (channel : Nat) (fftData : Nat → ℂ) (n : Nat)
    (hn : 2 * n ≤ WINDOW_SIZE) (k : Nat) :
    scaleBins p channel fftData n k =
      if k < n then fftData k * (scale p channel k : ℂ)
      else if WINDOW_SIZE - n < k ∧ k ≤ WINDOW_SIZE then
        fftData k * (scale p channel (WINDOW_SIZE - k) : ℂ)
      else fftData k := by
  induction n generalizing k with
  | zero =>
    have h : ¬ (WINDOW_SIZE - 0 < k ∧ k ≤ WINDOW_SIZE) := by omega
    rw [if_neg (Nat.not_lt_zero k), if_neg h]
    rfl
  | succ n ih =>
    rw [scaleBins_succ]
    unfold scaleBin
    have hne : WINDOW_SIZE - n ≠ n := by omega
    by_cases hk1 : k = WINDOW_SIZE - n
    · subst hk1
      simp only [Function.update_same, Function.update_noteq hne]
      rw [ih (by omega)]
      have h1 : ¬ (WINDOW_SIZE - n < n) := by omega
      have h2 : ¬ (WINDOW_SIZE - n < WINDOW_SIZE - n ∧ WINDOW_SIZE - n ≤ WINDOW_SIZE) := by omega
      have h3 : ¬ (WINDOW_SIZE - n < n + 1) := by omega
      have h4 : WINDOW_SIZE - (n + 1) < WINDOW_SIZE - n ∧ WINDOW_SIZE - n ≤ WINDOW_SIZE := by
        omega
      have h5 : WINDOW_SIZE - (WINDOW_SIZE - n) = n := by omega
      rw [if_neg h1, if_neg h2, if_neg h3, if_pos h4, h5]
    · simp only [Function.update_noteq hk1]
      by_cases hk2 : k = n
      · subst hk2
        simp only [Function.update_same]
        rw [ih (by omega)]
        have h1 : ¬ (k < k) := by omega
        have h2 : ¬ (WINDOW_SIZE - k < k ∧ k ≤ WINDOW_SIZE) := by omega
        have h3 : k < k + 1 := by omega
        rw [if_neg h1, if_neg h2, if_pos h3]
      · simp only [Function.update_noteq hk2]
        rw [ih (by omega)]
        by_cases hlt : k < n
        · have h3 : k < n + 1 := by omega
          rw [if_pos hlt, if_pos h3]
        · have h3 : ¬ (k < n + 1) := by omega
          by_cases hm : WINDOW_SIZE - n < k ∧ k ≤ WINDOW_SIZE
          · have h4 : WINDOW_SIZE - (n + 1) < k ∧ k ≤ WINDOW_SIZE := by omega
            rw [if_neg hlt, if_neg h3, if_pos hm, if_pos h4]
          · have h4 : ¬ (WINDOW_SIZE - (n + 1) < k ∧ k ≤ WINDOW_SIZE) := by omega
            rw [if_neg hlt, if_neg h3, if_neg hm, if_neg h4]

theorem processFFT_eq (p : Params) (fftData : Nat → ℂ) (channel : Nat) :
    processFFT p fftData channel =
      scaleBin p channel (scaleBins p channel fftData (WINDOW_SIZE / 2)) (WINDOW_SIZE / 2) := by
  unfold processFFT
  rw [scaleBins_succ]

theorem processFFT_boundary (p : Params) (fftData : Nat → ℂ) (channel : Nat) :
    processFFT p fftData channel 0 = (scale p channel 0 : ℂ) * fftData 0 ∧
    processFFT p fftData channel (WINDOW_SIZE / 2) =
      (scale p channel (WINDOW_SIZE / 2) : ℂ) * ((scale p channel (WINDOW_SIZE / 2) : ℂ) *
        fftData (WINDOW_SIZE / 2)) := by
  have hW := WINDOW_SIZE_eq
  rw [processFFT_eq]
  unfold scaleBin
  have ha : 0 ≠ WINDOW_SIZE - WINDOW_SIZE / 2 := by omega
  have hb : 0 ≠ WINDOW_SIZE / 2 := by omega
  have hm : WINDOW_SIZE - WINDOW_SIZE / 2 = WINDOW_SIZE / 2 := by omega
  constructor
  · simp only [Function.update_noteq ha, Function.update_noteq hb]
    rw [scaleBins_below_middle p channel fftData _ (by omega)]
    have h3 : 0 < WINDOW_SIZE / 2 := by omega
    rw [if_pos h3]
    ring
  · rw [hm]
    simp only [Function.update_same]
    rw [scaleBins_below_middle p channel fftData _ (by omega)]
    have h3 : ¬ (WINDOW_SIZE / 2 < WINDOW_SIZE / 2) := by omega
    have h4 : ¬ (WINDOW_SIZE - WINDOW_SIZE / 2 < WINDOW_SIZE / 2 ∧
        WINDOW_SIZE / 2 ≤ WINDOW_SIZE) := by omega
    rw [if_neg h3, if_neg h4]
    ring

theorem scale_flat (p : Params) (channel i : Nat) (hb : p.bands = 0) (hp : p.position = 0)
    (ho : p.offset = 0) (hm : p.makeup = 0) :
    scale p channel i = 1 + 3 * p.width := by
  unfold scale binScaleClipped binScaleScaled binScaleModulated phaseOffset indexLog
    bandsScaled positionScaled
  rw [hb, hp, ho, hm, makeupScaled_zero]
  norm_num
  unfold jlimit
  norm_num

/-! ## Claims about the gain and the spectrum -/

/-- C6 fails as stated: at channel 0, bin 0, width 1 and position, offset, bias,
makeup 0 the scale applied to the bin is 4, outside the interval from 0 to 1. -/
theorem scale_exceeds_one :
    scale { bands := 0.5, position := 0, width := 1, offset := 0, bias := 0, makeup := 0 } 0 0 = 4 ∧
    ¬ (0 ≤ scale { bands := 0.5, position := 0, width := 1, offset := 0, bias := 0, makeup := 0 } 0 0 ∧
       scale { bands := 0.5, position := 0, width := 1, offset := 0, bias := 0, makeup := 0 } 0 0 ≤ 1) := by
  have h : scale
      { bands := 0.5, position := 0, width := 1, offset := 0, bias := 0, makeup := 0 } 0 0 = 4 := by
    rw [scale_bin_zero _ _ rfl]
    simp only []
    rw [makeupScaled_zero]
    norm_num
    unfold jlimit
    norm_num
  rw [h]
  norm_num

/-- C6, as the code has it: for every channel, bin and parameter values with
width between 0 and 1, the clipped factor lies between 0 and 1 and the scale
applied to the bin lies between 0 and `1 + 3 * width`, hence between 0 and 4. -/
theorem scale_bounds (p : Params) (channel i : Nat) (hw0 : 0 ≤ p.width) (hw1 : p.width ≤ 1) :
    (0 ≤ binScaleClipped p channel i ∧ binScaleClipped p channel i ≤ 1) ∧
    0 ≤ scale p channel i ∧ scale p channel i ≤ 1 + 3 * p.width ∧ scale p channel i ≤ 4 := by
  have hc := jlimit_unit_mem (binScaleScaled p channel i * (1.0 + makeupScaled p.makeup))
  have hc0 : 0 ≤ binScaleClipped p channel i := hc.1
  have hc1 : binScaleClipped p channel i ≤ 1 := hc.2
  have hf : 0 ≤ 1 + 3 * p.width := by linarith
  refine ⟨⟨hc0, hc1⟩, ?_, ?_, ?_⟩
  · exact mul_nonneg hc0 hf
  · unfold scale
    calc binScaleClipped p channel i * (1 + 3 * p.width)
        ≤ 1 * (1 + 3 * p.width) := mul_le_mul_of_nonneg_right hc1 hf
      _ = 1 + 3 * p.width := one_mul _
  · unfold scale
    calc binScaleClipped p channel i * (1 + 3 * p.width)
        ≤ 1 * (1 + 3 * p.width) := mul_le_mul_of_nonneg_right hc1 hf
      _ ≤ 4 := by linarith

/-- C6 amended, at the default parameters, channel 0 and bin 3. -/
theorem scale_bounds_witness :
    (0 ≤ defaultParams.width ∧ defaultParams.width ≤ 1) ∧
    ((0 ≤ binScaleClipped defaultParams 0 3 ∧ binScaleClipped defaultParams 0 3 ≤ 1) ∧
      0 ≤ scale defaultParams 0 3 ∧ scale defaultParams 0 3 ≤ 1 + 3 * defaultParams.width ∧
      scale defaultParams 0 3 ≤ 4) :=
  ⟨⟨by norm_num [defaultParams], by norm_num [defaultParams]⟩,
    scale_bounds defaultParams 0 3 (by norm_num [defaultParams]) (by norm_num [defaultParams])⟩

/-- C7: at width 0 the scale applied to a bin is the same for all values of
bands, position and offset, whatever the channel, the bin, the bias and the
makeup; at bands 0.5, position 0.5, offset 0, bias 0 and makeup 0 it is exactly 1
at every bin. -/
theorem scale_width_zero_flat (channel i : Nat)
    (bands position offset bands' position' offset' bias makeup : ℝ) :
    scale { bands := bands, position := position, width := 0, offset := offset,
            bias := bias, makeup := makeup } channel i =
      scale { bands := bands', position := position', width := 0, offset := offset',
              bias := bias, makeup := makeup } channel i ∧
    scale { bands := 0.5, position := 0.5, width := 0, offset := 0, bias := 0, makeup := 0 }
      channel i = 1 := by
  constructor
  · rw [scale_width_zero _ _ _ rfl, scale_width_zero _ _ _ rfl]
  · rw [scale_width_zero _ _ _ rfl]
    simp only []
    rw [makeupScaled_zero]
    unfold jlimit
    norm_num

/-- C8: for every channel, parameter values and bin `i` from 1 to
`WINDOW_SIZE / 2 - 1`, one call of `processFFT` leaves at index `i` and at the
mirror index `WINDOW_SIZE - i` the former value multiplied once by the scale of
bin `i`. -/
theorem processFFT_mirror_pair (p : Params) (fftData : Nat → ℂ) (channel i : Nat)
    (h1 : 1 ≤ i) (h2 : i ≤ WINDOW_SIZE / 2 - 1) :
    processFFT p fftData channel i = (scale p channel i : ℂ) * fftData i ∧
    processFFT p fftData channel (WINDOW_SIZE - i)
      = (scale p channel i : ℂ) * fftData (WINDOW_SIZE - i) := by
  have hW := WINDOW_SIZE_eq
  rw [processFFT_eq]
  unfold scaleBin
  have ha : i ≠ WINDOW_SIZE - WINDOW_SIZE / 2 := by omega
  have hb : i ≠ WINDOW_SIZE / 2 := by omega
  have hc : WINDOW_SIZE - i ≠ WINDOW_SIZE - WINDOW_SIZE / 2 := by omega
  have hd : WINDOW_SIZE - i ≠ WINDOW_SIZE / 2 := by omega
  constructor
  · simp only [Function.update_noteq ha, Function.update_noteq hb]
    rw [scaleBins_below_middle p channel fftData _ (by omega)]
    have h3 : i < WINDOW_SIZE / 2 := by omega
    rw [if_pos h3]
    ring
  · simp only [Function.update_noteq hc, Function.update_noteq hd]
    rw [scaleBins_below_middle p channel fftData _ (by omega)]
    have h3 : ¬ (WINDOW_SIZE - i < WINDOW_SIZE / 2) := by omega
    have h4 : WINDOW_SIZE - WINDOW_SIZE / 2 < WINDOW_SIZE - i ∧ WINDOW_SIZE - i ≤ WINDOW_SIZE := by
      omega
    have h5 : WINDOW_SIZE - (WINDOW_SIZE - i) = i := by omega
    rw [if_neg h3, if_pos h4, h5]
    ring

/-- C8 at the default parameters, channel 0, bin 1 and a spectrum of ones. -/
theorem processFFT_mirror_pair_witness :
    (1 ≤ 1 ∧ 1 ≤ WINDOW_SIZE / 2 - 1) ∧
    (processFFT defaultParams (fun _ => 1) 0 1 =
        (scale defaultParams 0 1 : ℂ) * (fun _ => (1 : ℂ)) 1 ∧
      processFFT defaultParams (fun _ => 1) 0 (WINDOW_SIZE - 1) =
        (scale defaultParams 0 1 : ℂ) * (fun _ => (1 : ℂ)) (WINDOW_SIZE - 1)) :=
  ⟨⟨by decide, by decide⟩,
    processFFT_mirror_pair defaultParams (fun _ => 1) 0 1 (by decide) (by decide)⟩

/-- C9 fails on the code: at bands, position, offset, bias, makeup 0 and width 1
the scale of the middle bin is 4, and one call of `processFFT` on a spectrum of
ones leaves 16 at index `WINDOW_SIZE / 2`, the value multiplied twice, where
one multiplication gives 4; bin 0 is multiplied once. -/
theorem processFFT_middle_bin_scaled_twice :
    scale { bands := 0, position := 0, width := 1, offset := 0, bias := 0, makeup := 0 }
      0 (WINDOW_SIZE / 2) = 4 ∧
    processFFT { bands := 0, position := 0, width := 1, offset := 0, bias := 0, makeup := 0 }
      (fun _ => 1) 0 (WINDOW_SIZE / 2) = 16 ∧
    processFFT { bands := 0, position := 0, width := 1, offset := 0, bias := 0, makeup := 0 }
      (fun _ => 1) 0 (WINDOW_SIZE / 2) ≠
      (scale { bands := 0, position := 0, width := 1, offset := 0, bias := 0, makeup := 0 }
        0 (WINDOW_SIZE / 2) : ℂ) * (fun _ => (1 : ℂ)) (WINDOW_SIZE / 2) ∧
    processFFT { bands := 0, position := 0, width := 1, offset := 0, bias := 0, makeup := 0 }
      (fun _ => 1) 0 0 = 4 := by
  have hs : ∀ i, scale
      { bands := 0, position := 0, width := 1, offset := 0, bias := 0, makeup := 0 } 0 i = 4 := by
    intro i
    rw [scale_flat _ _ _ rfl rfl rfl rfl]
    norm_num
  have hb := processFFT_boundary
    { bands := 0, position := 0, width := 1, offset := 0, bias := 0, makeup := 0 } (fun _ => 1) 0
  rw [hs, hs] at hb
  refine ⟨hs _, ?_, ?_, ?_⟩
  · rw [hb.2]; norm_num
  · rw [hb.2, hs]; norm_num
  · rw [hb.1]; norm_num

/-- C10: for every bias, so for every bias between -1 and 1, and every bin `i`
up to `WINDOW_SIZE / 2`, the gain computation has no singularity over the reals:
bias 0 is replaced by the base 1.001, the base is positive, the divisor
`biasScaled^5 - 1` is not zero, `indexBias` lies between 0 and 1, and the
argument of the logarithm is at least 1. -/
theorem gain_no_singularity (bias : ℝ) (i : Nat) (hi : i ≤ WINDOW_SIZE / 2) :
    (bias = 0 → biasScaled bias = 1.001) ∧
    0 < biasScaled bias ∧
    Real.rpow (biasScaled bias) 5.0 - 1.0 ≠ 0 ∧
    (0 ≤ indexBias bias i ∧ indexBias bias i ≤ 1) ∧
    1 ≤ indexLogArg bias i := by
  obtain ⟨hD, hi0, hi1⟩ := indexBias_facts bias i hi
  refine ⟨fun h => by unfold biasScaled; rw [if_pos (by rw [h]; norm_num)], ?_, hD, ⟨hi0, hi1⟩, ?_⟩
  · rcases biasScaled_cases bias with hb | ⟨hb, _⟩
    · linarith
    · exact hb
  · unfold indexLogArg
    have h0 : (0 : ℝ) ≤ i := Nat.cast_nonneg i
    have : 0 ≤ (i : ℝ) * 12.0 * indexBias bias i := by positivity
    norm_num at this ⊢
    linarith

/-- C10 at bias 0 and the last bin of the loop. -/
theorem gain_no_singularity_witness :
    2048 ≤ WINDOW_SIZE / 2 ∧
    ((0 = (0 : ℝ) → biasScaled 0 = 1.001) ∧
    0 < biasScaled 0 ∧
    Real.rpow (biasScaled 0) 5.0 - 1.0 ≠ 0 ∧
    (0 ≤ indexBias 0 2048 ∧ indexBias 0 2048 ≤ 1) ∧
    1 ≤ indexLogArg 0 2048) :=
  ⟨by decide, gain_no_singularity 0 2048 (by decide)⟩

/-! ## Properties of the published spectrum and of the interleavings -/

theorem scaleBins_zero (p : Params) (channel : Nat) (fftData : Nat → ℂ) :
    scaleBins p channel fftData 0 = fftData := by
  simp [scaleBins]

theorem setPolar_eq (spectrum : List (List Polar)) (channel i : Nat) (value : Polar)
    (row : List Polar) (hrow : spectrum[channel]? = some row) (hi : i < row.length) :
    setPolar spectrum channel i value = some (spectrum.set channel (row.set i value)) := by
  unfold setPolar
  rw [hrow]
  simp [hi]

/-- The published spectrum and the transform data after the first `n` passes of
the loop of `processFFT`: the row of the channel holds the published values of
the bins below `n` and its former values from `n` on; the other rows are as
before. -/
theorem publishBins_spec (p : Params) (channel : Nat) (spectrum : List (List Polar))
    (fftData : Nat → ℂ) (row : List Polar) (hrow : spectrum[channel]? = some row)
    (n : Nat) (hn : n ≤ row.length) :
    ∃ (spectrum' : List (List Polar)) (row' : List Polar),
      publishBins p channel (spectrum, fftData) n
        = some (spectrum', scaleBins p channel fftData n) ∧
      spectrum'.length = spectrum.length ∧
      spectrum'[channel]? = some row' ∧
      row'.length = row.length ∧
      (∀ j, row'[j]? =
        if j < n then some (polarOf (scaleBins p channel fftData (j + 1) j)) else row[j]?) ∧
      (∀ c, c ≠ channel → spectrum'[c]? = spectrum[c]?) := by
  induction n with
  | zero =>
    exact ⟨spectrum, row, by simp [publishBins, scaleBins_zero], rfl, hrow, rfl,
      fun j => by simp, fun _ _ => rfl⟩
  | succ n ih =>
    obtain ⟨sp, r, hrun, hlen, hsp, hr, hval, hoth⟩ := ih (by omega)
    have hch : channel < sp.length := by
      rcases Nat.lt_or_ge channel sp.length with h | h
      · exact h
      · rw [List.getElem?_eq_none h] at hsp; cases hsp
    refine ⟨sp.set channel (r.set n (polarOf (scaleBins p channel fftData (n + 1) n))),
      r.set n (polarOf (scaleBins p channel fftData (n + 1) n)), ?_, ?_, ?_, ?_, ?_, ?_⟩
    · simp only [publishBins, hrun, Option.some_bind, publishBin]
      rw [← scaleBins_succ, setPolar_eq sp channel n _ r hsp (by omega)]
      rfl
    · simp [hlen]
    · simp [hch]
    · simp [hr]
    · intro j
      by_cases hj : j = n
      · subst hj
        have : j < r.length := by omega
        simp [this]
      · rw [List.getElem?_set_ne (fun h => hj h.symm), hval j]
        by_cases hlt : j < n
        · rw [if_pos hlt, if_pos (by omega)]
        · rw [if_neg hlt, if_neg (by omega)]
    · intro c hc
      rw [List.getElem?_set_ne (fun h => hc h.symm)]
      exact hoth c hc

theorem processFFT_low_bin (p : Params) (fftData : Nat → ℂ) (channel j : Nat)
    (hj : j < WINDOW_SIZE / 2) :
    processFFT p fftData channel j = fftData j * (scale p channel j : ℂ) := by
  have hW := WINDOW_SIZE_eq
  rw [processFFT_eq]
  unfold scaleBin
  have ha : j ≠ WINDOW_SIZE - WINDOW_SIZE / 2 := by omega
  have hb : j ≠ WINDOW_SIZE / 2 := by omega
  simp only [Function.update_noteq ha, Function.update_noteq hb]
  rw [scaleBins_below_middle p channel fftData _ (by omega), if_pos hj]

/-- The value published for bin `j` is taken from the final scaled spectrum: no
later pass of the loop touches an index up to `WINDOW_SIZE / 2`. -/
theorem scaleBins_succ_self (p : Params) (fftData : Nat → ℂ) (channel j : Nat)
    (hj : j ≤ WINDOW_SIZE / 2) :
    scaleBins p channel fftData (j + 1) j = processFFT p fftData channel j := by
  have hW := WINDOW_SIZE_eq
  rcases Nat.lt_or_ge j (WINDOW_SIZE / 2) with h | h
  · rw [processFFT_low_bin p fftData channel j h,
      scaleBins_below_middle p channel fftData _ (by omega), if_pos (by omega)]
  · have : j = WINDOW_SIZE / 2 := by omega
    subst this
    rfl

theorem processFFT_outside (p : Params) (fftData : Nat → ℂ) (channel : Nat) :
    processFFT p fftData channel WINDOW_SIZE
      = fftData WINDOW_SIZE * (scale p channel 0 : ℂ) := by
  have hW := WINDOW_SIZE_eq
  rw [processFFT_eq]
  unfold scaleBin
  have ha : WINDOW_SIZE ≠ WINDOW_SIZE - WINDOW_SIZE / 2 := by omega
  have hb : WINDOW_SIZE ≠ WINDOW_SIZE / 2 := by omega
  simp only [Function.update_noteq ha, Function.update_noteq hb]
  rw [scaleBins_below_middle p channel fftData _ (by omega), if_neg (by omega),
    if_pos (by omega), Nat.sub_self]

theorem FFT_SIZE_eq : FFT_SIZE = 4096 := by decide

/-- The rows of a published spectrum all exist and have `FFT_SIZE` entries. -/
theorem ctor_rows (c : Nat) (hc : c < NUM_CHANNELS) :
    PluginProcessor.ctor.m_prevSpectrum[c]? = some (List.replicate FFT_SIZE default) := by
  have h2 : c = 0 ∨ c = 1 := by unfold NUM_CHANNELS at hc; omega
  rcases h2 with h | h <;> subst h <;>
    simp [PluginProcessor.ctor, NUM_CHANNELS, CircularBuffer.vectorResize_nil]

theorem half_window_lt : WINDOW_SIZE / 2 < FFT_SIZE := by decide

/-- What one call of `processFFT` does to a processor whose row for the channel
has more than `WINDOW_SIZE / 2` entries. -/
theorem processFFT_spec (p : Params) (self : PluginProcessor) (fftData : Nat → ℂ)
    (channel : Nat) (row : List Polar) (hrow : self.m_prevSpectrum[channel]? = some row)
    (hlen : WINDOW_SIZE / 2 < row.length) :
    ∃ (self' : PluginProcessor) (row' : List Polar),
      PluginProcessor.processFFT p self fftData channel
        = some (self', processFFT p fftData channel) ∧
      self'.m_isSpectrumReady = true ∧
      self'.m_prevAudioBuffer = self.m_prevAudioBuffer ∧
      self'.m_prevSpectrum.length = self.m_prevSpectrum.length ∧
      self'.m_prevSpectrum[channel]? = some row' ∧
      row'.length = row.length ∧
      (∀ j, row'[j]? =
        if j ≤ WINDOW_SIZE / 2 then some (polarOf (processFFT p fftData channel j))
        else row[j]?) ∧
      (∀ c, c ≠ channel → self'.m_prevSpectrum[c]? = self.m_prevSpectrum[c]?) := by
  obtain ⟨sp, r, hrun, hlen', hsp, hr, hval, hoth⟩ :=
    publishBins_spec p channel self.m_prevSpectrum fftData row hrow (WINDOW_SIZE / 2 + 1)
      (by omega)
  refine ⟨{ self with m_prevSpectrum := sp, m_isSpectrumReady := true }, r, ?_, rfl, rfl,
    hlen', hsp, hr, ?_, hoth⟩
  · unfold PluginProcessor.processFFT
    rw [hrun]
    simp only [Option.map_some']
    unfold processFFT
    rfl
  · intro j
    rw [hval j]
    by_cases hj : j ≤ WINDOW_SIZE / 2
    · rw [if_pos (by omega), if_pos hj, scaleBins_succ_self p fftData channel j hj]
    · rw [if_neg (by omega), if_neg hj]

/-- The processor after a sequence of hop callbacks for existing channels: the
callbacks all run, the rows keep their size, and the flag is set as soon as one
callback has run. -/
theorem runHops_spec (hops : List Hop) (self : PluginProcessor)
    (hself : ∀ c, c < NUM_CHANNELS →
      ∃ row, self.m_prevSpectrum[c]? = some row ∧ row.length = FFT_SIZE)
    (hch : ∀ h ∈ hops, h.channel < NUM_CHANNELS) :
    ∃ s : PluginProcessor, PluginProcessor.runHops self hops = some s ∧
      (∀ c, c < NUM_CHANNELS → ∃ row, s.m_prevSpectrum[c]? = some row ∧ row.length = FFT_SIZE) ∧
      (hops = [] → s.m_isSpectrumReady = self.m_isSpectrumReady) ∧
      (hops ≠ [] → s.m_isSpectrumReady = true) := by
  induction hops generalizing self with
  | nil => exact ⟨self, rfl, hself, fun _ => rfl, fun h => absurd rfl h⟩
  | cons h rest ih =>
    have hc : h.channel < NUM_CHANNELS := hch h (List.mem_cons_self _ _)
    obtain ⟨row, hrow, hrl⟩ := hself h.channel hc
    obtain ⟨self', row', hrun, hflag, _, _, hrow', hrl', _, hoth⟩ :=
      processFFT_spec h.params self h.fftData h.channel row hrow
        (by rw [hrl]; exact half_window_lt)
    have hself' : ∀ c, c < NUM_CHANNELS →
        ∃ row, self'.m_prevSpectrum[c]? = some row ∧ row.length = FFT_SIZE := by
      intro c hcc
      by_cases hce : c = h.channel
      · subst hce; exact ⟨row', hrow', by rw [hrl', hrl]⟩
      · rw [hoth c hce]; exact hself c hcc
    obtain ⟨s, hs, hrows, hf0, hf1⟩ := ih self' hself'
      (fun h' hh' => hch h' (List.mem_cons_of_mem _ hh'))
    refine ⟨s, ?_, hrows, fun h0 => absurd h0 (List.cons_ne_nil _ _), fun _ => ?_⟩
    · simp only [PluginProcessor.runHops, hrun, Option.some_bind]
      exact hs
    · by_cases hnil : rest = []
      · rw [hf0 hnil, hflag]
      · exact hf1 hnil

theorem ctor_wf (c : Nat) (hc : c < NUM_CHANNELS) :
    ∃ row, PluginProcessor.ctor.m_prevSpectrum[c]? = some row ∧ row.length = FFT_SIZE :=
  ⟨_, ctor_rows c hc, by simp⟩

theorem ctor_audio_rows (c : Nat) (hc : c < NUM_CHANNELS) :
    PluginProcessor.ctor.m_prevAudioBuffer[c]? = some (List.replicate FFT_SIZE default) := by
  have h2 : c = 0 ∨ c = 1 := by unfold NUM_CHANNELS at hc; omega
  rcases h2 with h | h <;> subst h <;>
    simp [PluginProcessor.ctor, NUM_CHANNELS, CircularBuffer.vectorResize_nil]

/-- The bulk copy of `processBlock` fails on every block shorter than the
last-block buffer. -/
theorem copyLastBlock_short (self : PluginProcessor) (channelData : List ℝ) (channel : Nat)
    (prev : List ℝ) (hprev : self.m_prevAudioBuffer[channel]? = some prev)
    (hshort : channelData.length < prev.length) :
    PluginProcessor.copyLastBlock self channelData channel = none := by
  unfold PluginProcessor.copyLastBlock
  rw [hprev]
  simp only [memcpy]
  rw [if_neg (by omega)]
  rfl

theorem scaleBinChecked_zero (p : Params) (channel : Nat) (fftData : List ℂ)
    (hlen : fftData.length = WINDOW_SIZE) :
    scaleBinChecked p channel fftData 0 = none := by
  have hW := WINDOW_SIZE_eq
  unfold scaleBinChecked
  have h0 : 0 < fftData.length := by omega
  rw [List.getElem?_eq_getElem h0]
  simp only [Nat.sub_zero]
  rw [List.getElem?_eq_none (by simp [hlen])]

theorem scaleBinsChecked_none (p : Params) (channel : Nat) (fftData : List ℂ)
    (hlen : fftData.length = WINDOW_SIZE) (n : Nat) :
    scaleBinsChecked p channel fftData (n + 1) = none := by
  induction n with
  | zero => simp [scaleBinsChecked, scaleBinChecked_zero p channel fftData hlen]
  | succ n ih =>
    rw [scaleBinsChecked, ih]
    rfl

theorem memcpy_whole {α : Type} (dst src : List α) (h : dst.length = src.length) :
    memcpy dst src src.length = some src := by
  unfold memcpy
  rw [if_pos ⟨by omega, le_refl _⟩]
  simp [← h]

theorem copyChannel_eq (self : PluginProcessor) (destination : List (List Polar))
    (channel : Nat) (dst src : List Polar) (hdst : destination[channel]? = some dst)
    (hsrc : self.m_prevSpectrum[channel]? = some src) (hlen : dst.length = src.length) :
    PluginProcessor.copyChannel self destination channel
      = some (destination.set channel src) := by
  unfold PluginProcessor.copyChannel
  rw [hdst, hsrc]
  simp only [memcpy_whole dst src hlen, Option.map_some']

/-- The rows of the published spectrum after `k` passes of the loop of a hop, in
terms of the rows before the hop and of the final scaled spectrum. -/
theorem publishBins_rows (p : Params) (hopChannel : Nat) (spectrum : List (List Polar))
    (fftData : Nat → ℂ) (hch : hopChannel < NUM_CHANNELS)
    (hwf : ∀ c, c < NUM_CHANNELS →
      ∃ row, spectrum[c]? = some row ∧ row.length = FFT_SIZE)
    (k : Nat) (hk : k ≤ WINDOW_SIZE / 2 + 1) :
    ∃ sp : List (List Polar),
      publishBins p hopChannel (spectrum, fftData) k
        = some (sp, scaleBins p hopChannel fftData k) ∧
      ∀ c, c < NUM_CHANNELS → ∃ pre cur : List Polar,
        spectrum[c]? = some pre ∧ sp[c]? = some cur ∧ cur.length = FFT_SIZE ∧
        pre.length = FFT_SIZE ∧
        ∀ j, cur[j]? =
          if c = hopChannel ∧ j < k then some (polarOf (processFFT p fftData hopChannel j))
          else pre[j]? := by
  have hhalf := half_window_lt
  obtain ⟨row, hrow, hrl⟩ := hwf hopChannel hch
  obtain ⟨sp, r, hrun, _, hsp, hr, hval, hoth⟩ :=
    publishBins_spec p hopChannel spectrum fftData row hrow k (by omega)
  refine ⟨sp, hrun, fun c hc => ?_⟩
  by_cases hce : c = hopChannel
  · subst hce
    refine ⟨row, r, hrow, hsp, by rw [hr, hrl], hrl, fun j => ?_⟩
    rw [hval j]
    by_cases hj : j < k
    · rw [if_pos hj, if_pos ⟨rfl, hj⟩, scaleBins_succ_self p fftData c j (by omega)]
    · rw [if_neg hj, if_neg (fun h => hj h.2)]
  · obtain ⟨pre, hpre, hpl⟩ := hwf c hc
    refine ⟨pre, pre, hpre, by rw [hoth c hce, hpre], hpl, hpl, fun j => ?_⟩
    rw [if_neg (fun h => hce h.1)]

/-- Every schedule runs to completion, and every row the consumer has copied is
the row of the published spectrum after some number of passes of the hop. -/
theorem run_copied (p : Params) (hopChannel : Nat) (spectrum : List (List Polar))
    (fftData : Nat → ℂ) (hch : hopChannel < NUM_CHANNELS)
    (hwf : ∀ c, c < NUM_CHANNELS →
      ∃ row, spectrum[c]? = some row ∧ row.length = FFT_SIZE)
    (schedule : List Thread) (sys : Interleaving)
    (hprod : publishBins p hopChannel (spectrum, fftData) (min sys.i (WINDOW_SIZE / 2 + 1))
      = some (sys.self.m_prevSpectrum, sys.fftData))
    (hdest : ∀ c, c < NUM_CHANNELS →
      ∃ row, sys.destination[c]? = some row ∧ row.length = FFT_SIZE)
    (hcopied : ∀ c, c < sys.channel → ∃ (k : Nat) (sp : List (List Polar)),
      k ≤ WINDOW_SIZE / 2 + 1 ∧
      publishBins p hopChannel (spectrum, fftData) k
        = some (sp, scaleBins p hopChannel fftData k) ∧
      sys.destination[c]? = sp[c]?)
    (hcn : sys.channel ≤ NUM_CHANNELS) :
    ∃ sys' : Interleaving, Interleaving.run p hopChannel sys schedule = some sys' ∧
      sys'.channel ≤ NUM_CHANNELS ∧
      ∀ c, c < sys'.channel → ∃ (k : Nat) (sp : List (List Polar)),
        k ≤ WINDOW_SIZE / 2 + 1 ∧
        publishBins p hopChannel (spectrum, fftData) k
          = some (sp, scaleBins p hopChannel fftData k) ∧
        sys'.destination[c]? = sp[c]? := by
  induction schedule generalizing sys with
  | nil => exact ⟨sys, rfl, hcn, hcopied⟩
  | cons t ts ih =>
    cases t with
    | realTime =>
      by_cases hi : sys.i ≤ WINDOW_SIZE / 2
      · have hmin : min sys.i (WINDOW_SIZE / 2 + 1) = sys.i := by omega
        have hmin' : min (sys.i + 1) (WINDOW_SIZE / 2 + 1) = sys.i + 1 := by omega
        rw [hmin] at hprod
        obtain ⟨sp, hsp, _⟩ :=
          publishBins_rows p hopChannel spectrum fftData hch hwf (sys.i + 1) (by omega)
        have hstep : publishBin p hopChannel (sys.self.m_prevSpectrum, sys.fftData) sys.i
            = some (sp, scaleBins p hopChannel fftData (sys.i + 1)) := by
          rw [← hsp]
          simp only [publishBins, hprod, Option.some_bind]
        obtain ⟨sys', hrun, hres⟩ := ih
          { sys with self := { sys.self with m_prevSpectrum := sp },
                     fftData := scaleBins p hopChannel fftData (sys.i + 1), i := sys.i + 1 }
          (by rw [hmin']; exact hsp) hdest hcopied hcn
        refine ⟨sys', ?_, hres⟩
        simp only [Interleaving.run, Interleaving.step, if_pos hi, hstep, Option.map_some',
          Option.some_bind]
        exact hrun
      · by_cases hi2 : sys.i = WINDOW_SIZE / 2 + 1
        · have hmin : min (sys.i + 1) (WINDOW_SIZE / 2 + 1) = min sys.i (WINDOW_SIZE / 2 + 1) := by
            omega
          obtain ⟨sys', hrun, hres⟩ := ih
            { sys with self := { sys.self with m_isSpectrumReady := true }, i := sys.i + 1 }
            (by rw [hmin]; exact hprod) hdest hcopied hcn
          refine ⟨sys', ?_, hres⟩
          simp only [Interleaving.run, Interleaving.step, if_neg hi, if_pos hi2,
            Option.some_bind]
          exact hrun
        · obtain ⟨sys', hrun, hres⟩ := ih sys hprod hdest hcopied hcn
          refine ⟨sys', ?_, hres⟩
          simp only [Interleaving.run, Interleaving.step, if_neg hi, if_neg hi2,
            Option.some_bind]
          exact hrun
    | consumer =>
      by_cases hc : sys.channel < NUM_CHANNELS
      · obtain ⟨dst, hdst, hdl⟩ := hdest sys.channel hc
        obtain ⟨sp, hsp, hrows⟩ := publishBins_rows p hopChannel spectrum fftData hch hwf
          (min sys.i (WINDOW_SIZE / 2 + 1)) (by omega)
        have hspeq : sys.self.m_prevSpectrum = sp := by
          rw [hsp] at hprod
          simp only [Option.some.injEq, Prod.mk.injEq] at hprod
          exact hprod.1.symm
        obtain ⟨_, src, _, hsrc, hsl, _, _⟩ := hrows sys.channel hc
        have hcopy := copyChannel_eq sys.self sys.destination sys.channel dst src hdst
          (by rw [hspeq]; exact hsrc) (by rw [hdl, hsl])
        have hlt : sys.channel < sys.destination.length := by
          rcases Nat.lt_or_ge sys.channel sys.destination.length with h | h
          · exact h
          · rw [List.getElem?_eq_none h] at hdst; cases hdst
        obtain ⟨sys', hrun, hres⟩ := ih
          { sys with destination := sys.destination.set sys.channel src,
                     channel := sys.channel + 1 }
          hprod
          (by
            intro c hcc
            by_cases hce : c = sys.channel
            · subst hce
              exact ⟨src, by simp [hlt], hsl⟩
            · simp only []
              rw [List.getElem?_set_ne (fun h => hce h.symm)]
              exact hdest c hcc)
          (by
            intro c hcc
            simp only [] at hcc ⊢
            by_cases hce : c = sys.channel
            · subst hce
              refine ⟨min sys.i (WINDOW_SIZE / 2 + 1), sp, by omega, hsp, ?_⟩
              rw [hsrc]
              simp [hlt]
            · rw [List.getElem?_set_ne (fun h => hce h.symm)]
              exact hcopied c (by omega))
          (by simp only []; omega)
        refine ⟨sys', ?_, hres⟩
        simp only [Interleaving.run, Interleaving.step, if_pos hc, hcopy, Option.map_some',
          Option.some_bind]
        exact hrun
      · obtain ⟨sys', hrun, hres⟩ := ih sys hprod hdest hcopied hcn
        refine ⟨sys', ?_, hres⟩
        simp only [Interleaving.run, Interleaving.step, if_neg hc, Option.some_bind]
        exact hrun

theorem polarOf_four_ne_default : polarOf ((1 : ℂ) * ((4 : ℝ) : ℂ)) ≠ default := by
  intro h
  have h2 : (polarOf ((1 : ℂ) * ((4 : ℝ) : ℂ))).amplitude = (default : Polar).amplitude := by
    rw [h]
  have h3 : (default : Polar).amplitude = 0 := rfl
  rw [h3] at h2
  simp [polarOf] at h2

/-! ## Claims about the ready flag, the snapshots and the bounds -/

/-- C11, as the code has it: after every sequence of hop callbacks for channel 0
or channel 1 run from construction, `isSpectrumReady()` is true exactly when at
least one callback has run, whichever channel it was for; it is false at
construction. -/
theorem isSpectrumReady_iff_some_hop (hops : List Hop)
    (hch : ∀ h ∈ hops, h.channel < NUM_CHANNELS) :
    ∃ s : PluginProcessor, PluginProcessor.runHops PluginProcessor.ctor hops = some s ∧
      (s.isSpectrumReady = true ↔ hops ≠ []) := by
  obtain ⟨s, hs, _, hf0, hf1⟩ := runHops_spec hops PluginProcessor.ctor ctor_wf hch
  refine ⟨s, hs, ?_⟩
  unfold PluginProcessor.isSpectrumReady
  constructor
  · intro hready hnil
    rw [hf0 hnil] at hready
    simp [PluginProcessor.ctor] at hready
  · exact hf1

/-- C11 amended, at a single callback for channel 0. -/
theorem isSpectrumReady_iff_some_hop_witness :
    (∀ h ∈ [({ params := defaultParams, fftData := fun _ => 1, channel := 0 } : Hop)],
      h.channel < NUM_CHANNELS) ∧
    ∃ s : PluginProcessor,
      PluginProcessor.runHops PluginProcessor.ctor
        [({ params := defaultParams, fftData := fun _ => 1, channel := 0 } : Hop)] = some s ∧
      (s.isSpectrumReady = true ↔
        [({ params := defaultParams, fftData := fun _ => 1, channel := 0 } : Hop)] ≠ []) :=
  ⟨by simp [NUM_CHANNELS],
    isSpectrumReady_iff_some_hop
      [({ params := defaultParams, fftData := fun _ => 1, channel := 0 } : Hop)]
      (by simp [NUM_CHANNELS])⟩

/-- C11 fails as stated: after construction and one callback, for channel 0
only, `isSpectrumReady()` is true, while the row of channel 1 still holds the
values of construction, no spectrum having been written for it. -/
theorem isSpectrumReady_after_one_channel :
    ∃ st : PluginProcessor × (Nat → ℂ),
      PluginProcessor.processFFT defaultParams PluginProcessor.ctor (fun _ => 1) 0 = some st ∧
      st.1.isSpectrumReady = true ∧
      st.1.m_prevSpectrum[1]? = PluginProcessor.ctor.m_prevSpectrum[1]? ∧
      PluginProcessor.ctor.m_prevSpectrum[1]? = some (List.replicate FFT_SIZE default) := by
  obtain ⟨self', row', hrun, hflag, _, _, _, _, _, hoth⟩ :=
    processFFT_spec defaultParams PluginProcessor.ctor (fun _ => 1) 0 _
      (ctor_rows 0 (by decide))
      (by rw [List.length_replicate]; exact half_window_lt)
  exact ⟨_, hrun, hflag, hoth 1 (by decide), ctor_rows 1 (by decide)⟩

/-- C12, as the code has it: in every interleaving of the atomic steps of one
`processFFT` call and one `copySpectrum` call, both calls run to completion and
each per-channel array copied out holds, for some `k` up to `WINDOW_SIZE / 2 + 1`,
the values published by the hop in the bins below `k` and the values published
before the hop in all other bins: every entry is one whole published value, and
the array is a mix of the two hops when `k` lies strictly between the ends. -/
theorem copySpectrum_row_prefix_of_hop (p : Params) (hopChannel : Nat) (self : PluginProcessor)
    (fftData : Nat → ℂ) (destination : List (List Polar)) (schedule : List Thread)
    (hch : hopChannel < NUM_CHANNELS)
    (hself : ∀ c, c < NUM_CHANNELS →
      ∃ row, self.m_prevSpectrum[c]? = some row ∧ row.length = FFT_SIZE)
    (hdest : ∀ c, c < NUM_CHANNELS →
      ∃ row, destination[c]? = some row ∧ row.length = FFT_SIZE) :
    ∃ (sys : Interleaving) (st : PluginProcessor × (Nat → ℂ)),
      Interleaving.run p hopChannel (Interleaving.start self fftData destination) schedule
        = some sys ∧
      PluginProcessor.processFFT p self fftData hopChannel = some st ∧
      ∀ c, c < sys.channel →
        ∃ (pre post copied : List Polar) (k : Nat),
          self.m_prevSpectrum[c]? = some pre ∧
          st.1.m_prevSpectrum[c]? = some post ∧
          sys.destination[c]? = some copied ∧
          copied.length = pre.length ∧ post.length = pre.length ∧
          k ≤ WINDOW_SIZE / 2 + 1 ∧
          ∀ j, copied[j]? = if j < k then post[j]? else pre[j]? := by
  obtain ⟨sys, hrun, hcn, hcopied⟩ := run_copied p hopChannel self.m_prevSpectrum fftData hch
    hself schedule (Interleaving.start self fftData destination)
    (by simp [Interleaving.start, publishBins]) hdest
    (fun c hc => absurd hc (by simp [Interleaving.start]))
    (by simp [Interleaving.start])
  obtain ⟨row, hrow, hrl⟩ := hself hopChannel hch
  obtain ⟨self', row', hfft, _, _, _, hrow', hrl', hval, hoth⟩ :=
    processFFT_spec p self fftData hopChannel row hrow (by rw [hrl]; exact half_window_lt)
  refine ⟨sys, _, hrun, hfft, fun c hc => ?_⟩
  have hc2 : c < NUM_CHANNELS := by omega
  obtain ⟨k, sp, hk, hsp, hd⟩ := hcopied c hc
  obtain ⟨sp', hsp', hrows⟩ := publishBins_rows p hopChannel self.m_prevSpectrum fftData hch
    hself k hk
  have hspeq : sp = sp' := by
    rw [hsp] at hsp'
    simp only [Option.some.injEq, Prod.mk.injEq] at hsp'
    exact hsp'.1
  subst hspeq
  obtain ⟨pre, cur, hpre, hcur, hcl, hpl, hcv⟩ := hrows c hc2
  by_cases hce : c = hopChannel
  · subst hce
    have hpr : pre = row := by rw [hrow] at hpre; exact (Option.some.inj hpre).symm
    subst hpr
    refine ⟨pre, row', cur, k, hpre, hrow', by rw [hd, hcur], by rw [hcl, hpl], hrl', hk,
      fun j => ?_⟩
    rw [hcv j]
    by_cases hj : j < k
    · rw [if_pos ⟨rfl, hj⟩, if_pos hj, hval j, if_pos (by omega)]
    · rw [if_neg (fun h => hj h.2), if_neg hj]
  · refine ⟨pre, pre, cur, k, hpre, by simp only []; rw [hoth c hce, hpre], by rw [hd, hcur],
      by rw [hcl, hpl], rfl, hk, fun j => ?_⟩
    rw [hcv j, if_neg (fun h => hce h.1)]
    simp

/-- C12 amended, at the schedule real-time, consumer, real-time, consumer on a
freshly constructed processor. -/
theorem copySpectrum_row_prefix_of_hop_witness :
    (0 < NUM_CHANNELS ∧
      (∀ c, c < NUM_CHANNELS →
        ∃ row, PluginProcessor.ctor.m_prevSpectrum[c]? = some row ∧ row.length = FFT_SIZE) ∧
      (∀ c, c < NUM_CHANNELS →
        ∃ row, PluginProcessor.ctor.m_prevSpectrum[c]? = some row ∧ row.length = FFT_SIZE)) ∧
    ∃ (sys : Interleaving) (st : PluginProcessor × (Nat → ℂ)),
      Interleaving.run defaultParams 0
        (Interleaving.start PluginProcessor.ctor (fun _ => 1) PluginProcessor.ctor.m_prevSpectrum)
        [Thread.realTime, Thread.consumer, Thread.realTime, Thread.consumer] = some sys ∧
      PluginProcessor.processFFT defaultParams PluginProcessor.ctor (fun _ => 1) 0 = some st ∧
      ∀ c, c < sys.channel →
        ∃ (pre post copied : List Polar) (k : Nat),
          PluginProcessor.ctor.m_prevSpectrum[c]? = some pre ∧
          st.1.m_prevSpectrum[c]? = some post ∧
          sys.destination[c]? = some copied ∧
          copied.length = pre.length ∧ post.length = pre.length ∧
          k ≤ WINDOW_SIZE / 2 + 1 ∧
          ∀ j, copied[j]? = if j < k then post[j]? else pre[j]? :=
  ⟨⟨by decide, ctor_wf, ctor_wf⟩,
    copySpectrum_row_prefix_of_hop defaultParams 0 PluginProcessor.ctor (fun _ => 1)
      PluginProcessor.ctor.m_prevSpectrum
      [Thread.realTime, Thread.consumer, Thread.realTime, Thread.consumer]
      (by decide) ctor_wf ctor_wf⟩

/-- C12 fails as stated: when the consumer copies channel 0 after the real-time
thread has published bin 0 of a hop and before it publishes bin 1, the array
copied out is neither the array published before the hop nor the array
published by it: bin 0 is of the hop, bin 1 is of before. -/
theorem copySpectrum_mixes_two_hops :
    ∃ (sys : Interleaving) (st : PluginProcessor × (Nat → ℂ)) (pre post copied : List Polar),
      Interleaving.run
        { bands := 0, position := 0, width := 1, offset := 0, bias := 0, makeup := 0 } 0
        (Interleaving.start PluginProcessor.ctor (fun _ => 1) PluginProcessor.ctor.m_prevSpectrum)
        [Thread.realTime, Thread.consumer] = some sys ∧
      PluginProcessor.processFFT
        { bands := 0, position := 0, width := 1, offset := 0, bias := 0, makeup := 0 }
        PluginProcessor.ctor (fun _ => 1) 0 = some st ∧
      PluginProcessor.ctor.m_prevSpectrum[0]? = some pre ∧
      st.1.m_prevSpectrum[0]? = some post ∧
      sys.destination[0]? = some copied ∧
      copied ≠ pre ∧ copied ≠ post := by
  have hW := WINDOW_SIZE_eq
  have hF := FFT_SIZE_eq
  have hs : ∀ i, scale
      { bands := 0, position := 0, width := 1, offset := 0, bias := 0, makeup := 0 } 0 i = 4 := by
    intro i
    rw [scale_flat _ _ _ rfl rfl rfl rfl]
    norm_num
  have hpre := ctor_rows 0 (by decide)
  -- the real-time thread publishes bin 0
  obtain ⟨sp, r, hpub, _, hsp, hr, hval, _⟩ :=
    publishBins_spec
      { bands := 0, position := 0, width := 1, offset := 0, bias := 0, makeup := 0 } 0
      PluginProcessor.ctor.m_prevSpectrum (fun _ => 1) _ hpre 1
      (by rw [List.length_replicate, hF]; decide)
  have hstep : publishBin
      { bands := 0, position := 0, width := 1, offset := 0, bias := 0, makeup := 0 } 0
      (PluginProcessor.ctor.m_prevSpectrum, fun _ => 1) 0 = some (sp, scaleBins
        { bands := 0, position := 0, width := 1, offset := 0, bias := 0, makeup := 0 } 0
        (fun _ => 1) 1) := by
    rw [← hpub]
    simp only [publishBins, Option.some_bind]
  -- the consumer copies the row of channel 0
  have hcopy := copyChannel_eq
    { PluginProcessor.ctor with m_prevSpectrum := sp } PluginProcessor.ctor.m_prevSpectrum 0
    _ r hpre hsp (by rw [hr])
  -- the whole hop
  obtain ⟨self', post, hfft, _, _, _, hpost, _, hpv, _⟩ :=
    processFFT_spec
      { bands := 0, position := 0, width := 1, offset := 0, bias := 0, makeup := 0 }
      PluginProcessor.ctor (fun _ => 1) 0 _ hpre
      (by rw [List.length_replicate]; exact half_window_lt)
  have h0 : PluginProcessor.ctor.m_prevSpectrum.length = 2 := by
    simp [PluginProcessor.ctor, NUM_CHANNELS]
  refine ⟨{ self := { PluginProcessor.ctor with m_prevSpectrum := sp }
            fftData := scaleBins
              { bands := 0, position := 0, width := 1, offset := 0, bias := 0, makeup := 0 } 0
              (fun _ => 1) 1
            i := 1
            destination := PluginProcessor.ctor.m_prevSpectrum.set 0 r
            channel := 1 }, _, _, post, r, ?_, hfft, hpre, hpost, ?_, ?_, ?_⟩
  · simp only [Interleaving.run, Interleaving.step, Interleaving.start]
    rw [if_pos (by omega), hstep]
    simp only [Option.map_some', Option.some_bind]
    rw [if_pos (by decide), hcopy]
    rfl
  · simp [h0]
  · intro h
    have h1 := hval 0
    rw [if_pos (by decide), h, List.getElem?_replicate, if_pos (by rw [hF]; decide),
      scaleBins_succ_self _ _ _ _ (by omega), processFFT_low_bin _ _ _ _ (by omega), hs] at h1
    exact polarOf_four_ne_default (Option.some.inj h1).symm
  · intro h
    have h1 := hval 1
    have h2 := hpv 1
    rw [if_neg (by decide), List.getElem?_replicate, if_pos (by rw [hF]; decide)] at h1
    rw [← h, h1, if_pos (by omega), processFFT_low_bin _ _ _ _ (by omega), hs] at h2
    exact polarOf_four_ne_default (Option.some.inj h2).symm

/-- C13 fails on the code: for a block of 512 samples the bulk copy of
`processBlock` reads the indices below `FFT_SIZE` of the channel data, index 512
among them, past the end of the block, and a bounds-checked copy fails. -/
theorem copyLastBlock_reads_past_block :
    (List.replicate 512 (0 : ℝ)).length = 512 ∧
    PluginProcessor.lastBlockReads PluginProcessor.ctor 0 = List.range FFT_SIZE ∧
    512 ∈ PluginProcessor.lastBlockReads PluginProcessor.ctor 0 ∧
    PluginProcessor.copyLastBlock PluginProcessor.ctor (List.replicate 512 0) 0 = none := by
  have hr : PluginProcessor.lastBlockReads PluginProcessor.ctor 0 = List.range FFT_SIZE := by
    unfold PluginProcessor.lastBlockReads
    rw [ctor_audio_rows 0 (by decide)]
    simp
  refine ⟨List.length_replicate _ _, hr, ?_, ?_⟩
  · rw [hr, List.mem_range, FFT_SIZE_eq]
    decide
  · apply copyLastBlock_short _ _ _ _ (ctor_audio_rows 0 (by decide))
    rw [List.length_replicate, List.length_replicate, FFT_SIZE_eq]
    decide

/-- C14, as the code has it: when the stored row of channel `c` has `FFT_SIZE`
entries, as from construction on, `processFFT(data, c)` runs, scales the
spectrum in place, publishes for every bin `i` up to `WINDOW_SIZE / 2` the
magnitude and phase of the final scaled value, leaves the entries above
`WINDOW_SIZE / 2` and the rows of the other channel unchanged, and the stored
row keeps its `FFT_SIZE = WINDOW_SIZE` entries. -/
theorem processFFT_published_row (p : Params) (self : PluginProcessor) (fftData : Nat → ℂ)
    (c : Nat) (row : List Polar) (hrow : self.m_prevSpectrum[c]? = some row)
    (hlen : row.length = FFT_SIZE) :
    ∃ (self' : PluginProcessor) (row' : List Polar),
      PluginProcessor.processFFT p self fftData c = some (self', processFFT p fftData c) ∧
      self'.m_prevSpectrum[c]? = some row' ∧
      (∀ i, i ≤ WINDOW_SIZE / 2 → row'[i]? = some (polarOf (processFFT p fftData c i))) ∧
      (∀ i, WINDOW_SIZE / 2 < i → row'[i]? = row[i]?) ∧
      (∀ c', c' ≠ c → self'.m_prevSpectrum[c']? = self.m_prevSpectrum[c']?) ∧
      row'.length = FFT_SIZE ∧ FFT_SIZE = WINDOW_SIZE := by
  obtain ⟨self', row', hrun, _, _, _, hrow', hrl', hval, hoth⟩ :=
    processFFT_spec p self fftData c row hrow (by rw [hlen]; exact half_window_lt)
  refine ⟨self', row', hrun, hrow', fun i hi => ?_, fun i hi => ?_, hoth, by rw [hrl', hlen],
    rfl⟩
  · rw [hval i, if_pos hi]
  · rw [hval i, if_neg (by omega)]

/-- C14 amended, at a freshly constructed processor, channel 0 and a spectrum of
ones. -/
theorem processFFT_published_row_witness :
    (PluginProcessor.ctor.m_prevSpectrum[0]? = some (List.replicate FFT_SIZE default) ∧
      (List.replicate FFT_SIZE (default : Polar)).length = FFT_SIZE) ∧
    ∃ (self' : PluginProcessor) (row' : List Polar),
      PluginProcessor.processFFT defaultParams PluginProcessor.ctor (fun _ => 1) 0
        = some (self', processFFT defaultParams (fun _ => 1) 0) ∧
      self'.m_prevSpectrum[0]? = some row' ∧
      (∀ i, i ≤ WINDOW_SIZE / 2 →
        row'[i]? = some (polarOf (processFFT defaultParams (fun _ => 1) 0 i))) ∧
      (∀ i, WINDOW_SIZE / 2 < i → row'[i]? = (List.replicate FFT_SIZE (default : Polar))[i]?) ∧
      (∀ c', c' ≠ 0 → self'.m_prevSpectrum[c']? = PluginProcessor.ctor.m_prevSpectrum[c']?) ∧
      row'.length = FFT_SIZE ∧ FFT_SIZE = WINDOW_SIZE :=
  ⟨⟨ctor_rows 0 (by decide), by simp⟩,
    processFFT_published_row defaultParams PluginProcessor.ctor (fun _ => 1) 0
      (List.replicate FFT_SIZE default) (ctor_rows 0 (by decide)) (by simp)⟩

/-- C14 fails as stated: after construction and one callback for channel 0 the
stored row of channel 0 has 4096 entries, not `WINDOW_SIZE / 2 + 1 = 2049`. -/
theorem published_row_length_is_FFT_SIZE :
    ∃ (st : PluginProcessor × (Nat → ℂ)) (row' : List Polar),
      PluginProcessor.processFFT defaultParams PluginProcessor.ctor (fun _ => 1) 0 = some st ∧
      st.1.m_prevSpectrum[0]? = some row' ∧
      row'.length = 4096 ∧ WINDOW_SIZE / 2 + 1 = 2049 ∧ row'.length ≠ WINDOW_SIZE / 2 + 1 := by
  obtain ⟨self', row', hrun, _, _, _, hrow', hrl', _, _⟩ :=
    processFFT_spec defaultParams PluginProcessor.ctor (fun _ => 1) 0 _
      (ctor_rows 0 (by decide)) (by rw [List.length_replicate]; exact half_window_lt)
  have h1 : row'.length = 4096 := by rw [hrl', List.length_replicate, FFT_SIZE_eq]
  have h2 : WINDOW_SIZE / 2 + 1 = 2049 := by decide
  exact ⟨_, row', hrun, hrow', h1, h2, by rw [h1, h2]; decide⟩

/-- C15 fails on the code: on a spectrum buffer of exactly `WINDOW_SIZE` values,
pass 0 of the loop indexes `WINDOW_SIZE - 0 = WINDOW_SIZE`, which is not below
the length, so the bounds-checked callback fails; the unchecked callback
multiplies the element at index `WINDOW_SIZE`, outside the spectrum (from 1 to 4
at width 1 and the other parameters 0). -/
theorem processFFTChecked_out_of_range :
    (List.replicate WINDOW_SIZE (1 : ℂ)).length = WINDOW_SIZE ∧
    WINDOW_SIZE ∈ binIndices 0 ∧
    ¬ WINDOW_SIZE < (List.replicate WINDOW_SIZE (1 : ℂ)).length ∧
    scaleBinChecked defaultParams 0 (List.replicate WINDOW_SIZE 1) 0 = none ∧
    processFFTChecked defaultParams (List.replicate WINDOW_SIZE 1) 0 = none ∧
    processFFT { bands := 0, position := 0, width := 1, offset := 0, bias := 0, makeup := 0 }
      (fun _ => 1) 0 WINDOW_SIZE = 4 := by
  have hlen : (List.replicate WINDOW_SIZE (1 : ℂ)).length = WINDOW_SIZE := by simp
  refine ⟨hlen, by simp [binIndices], by simp, scaleBinChecked_zero _ _ _ hlen,
    scaleBinsChecked_none _ _ _ hlen _, ?_⟩
  rw [processFFT_outside, scale_flat _ _ _ rfl rfl rfl rfl]
  norm_num
